import Mathlib

/-!
Verification of the queue engine of `src/Harmonia/Harmonia.py`.

The Python heap of `Node` objects is modelled as an arena `mem : Nat → Node`
together with an allocation counter `fresh`; an object reference is an arena
address, and `None` is `Option.none`.  Every operation below mirrors the
corresponding Python method statement by statement; UI-only effects (labels,
treeview, button glyphs, the progress slider, timer scheduling) and the
external audio backend are abstracted into explicit state fields.
-/

/-- A `Song` of `Harmonia.py` is a Python object compared by identity
(the class defines no custom equality); no claim inspects title, artist or
path, so a song is modelled by its object identity. -/
abbrev Song := Nat

/-- `Node` from `Harmonia.py`: `data`, `next`, `prev`; the links are
(possibly absent) references, i.e. arena addresses. -/
structure Node where
  data : Song
  next : Option Nat
  prev : Option Nat
deriving DecidableEq

/-- Mutation of the node object stored at arena address `i`. -/
def upd (m : Nat → Node) (i : Nat) (v : Node) : Nat → Node :=
  fun j => if j = i then v else m j

/-- `Stack` from `Harmonia.py` (listening history): a Python list whose last
element is the top of the stack. -/
structure Stack (α : Type) where
  items : List α
deriving DecidableEq

def Stack.push {α} (s : Stack α) (x : α) : Stack α :=
  ⟨s.items ++ [x]⟩

def Stack.is_empty {α} (s : Stack α) : Bool :=
  s.items.length = 0

/-- `Stack.pop`: returns the popped item (`none` when the stack is empty)
together with the remaining stack (Python mutates the list in place). -/
def Stack.pop {α} (s : Stack α) : Option α × Stack α :=
  if s.is_empty then (none, s)
  else (s.items.getLast?, ⟨s.items.dropLast⟩)

/-- `DoublyLinkedList` from `Harmonia.py`.  `size` is a Python `int`
maintained by the operations; it is modelled as `Nat` (every claim operates
on well-formed queues, where `remove_node` is only applied to a member of a
chain of length `size ≥ 1`, so the truncated subtraction never truncates). -/
structure DoublyLinkedList where
  mem : Nat → Node
  fresh : Nat
  head : Option Nat
  tail : Option Nat
  current : Option Nat
  size : Nat

/-- `DoublyLinkedList.__init__`: the arena starts unallocated (`fresh = 0`),
its contents are arbitrary. -/
def emptyDLL : DoublyLinkedList :=
  { mem := fun _ => ⟨0, none, none⟩, fresh := 0,
    head := none, tail := none, current := none, size := 0 }

/-- `append`: add a song at the tail.  The `some _, none` combination of
`head`/`tail` makes the Python raise (`self.tail.next` on `None`); it is
unreachable from a well-formed queue. -/
def DoublyLinkedList.append (q : DoublyLinkedList) (data : Song) : DoublyLinkedList :=
  let i := q.fresh
  match q.head with
  | none =>
    { mem := upd q.mem i ⟨data, none, none⟩, fresh := i + 1,
      head := some i, tail := some i, current := some i, size := q.size + 1 }
  | some _ =>
    match q.tail with
    | some t =>
      { mem := upd (upd q.mem t { q.mem t with next := some i }) i ⟨data, none, some t⟩,
        fresh := i + 1, head := q.head, tail := some i, current := q.current,
        size := q.size + 1 }
    | none => q

/-- `clear`: resets the list fields; the node objects themselves are not
touched (references held elsewhere, e.g. by the history stack, survive). -/
def DoublyLinkedList.clear (q : DoublyLinkedList) : DoublyLinkedList :=
  { q with head := none, tail := none, current := none, size := 0 }

/-- `remove_node` on the node at address `i`.  The Python `if not node:
return` guard only filters a `None` argument; callers always pass a node.
The reads and writes happen in the Python statement order. -/
def DoublyLinkedList.remove_node (q : DoublyLinkedList) (i : Nat) : DoublyLinkedList :=
  let node := q.mem i
  let head' := if q.head = some i then node.next else q.head
  let tail' := if q.tail = some i then node.prev else q.tail
  let m1 :=
    match node.prev with
    | some p => upd q.mem p { q.mem p with next := node.next }
    | none => q.mem
  let m2 :=
    match node.next with
    | some nx => upd m1 nx { m1 nx with prev := node.prev }
    | none => m1
  let current' :=
    if q.current = some i then
      match (m2 i).next with
      | some nxt => some nxt
      | none => (m2 i).prev
    else q.current
  let m3 := upd m2 i { m2 i with next := none, prev := none }
  { mem := m3, fresh := q.fresh, head := head', tail := tail',
    current := current', size := q.size - 1 }

/-- `get_node_at_index`'s walk `temp = self.head; for _ in range(index):
temp = temp.next`.  Reaching `none` mid-walk would raise in Python; it is
unreachable under the caller's `index < size` guard on a well-formed
queue. -/
def DoublyLinkedList.walk (q : DoublyLinkedList) : Option Nat → Nat → Option Nat
  | cur, 0 => cur
  | none, _ + 1 => none
  | some i, k + 1 => q.walk (q.mem i).next k

/-- `get_node_at_index` (the index from the UI is non-negative). -/
def DoublyLinkedList.get_node_at_index (q : DoublyLinkedList) (index : Nat) : Option Nat :=
  if index ≥ q.size then none
  else q.walk q.head index

/-- `swap_nodes`: swap the adjacent nodes `node1`, `node2`
(no-op unless `node1.next` is `node2`). -/
def DoublyLinkedList.swap_nodes (q : DoublyLinkedList) (node1 node2 : Nat) : DoublyLinkedList :=
  if (q.mem node1).next ≠ some node2 then q
  else
    let prev_node := (q.mem node1).prev
    let next_node := (q.mem node2).next
    let m1 :=
      match prev_node with
      | some p => upd q.mem p { q.mem p with next := some node2 }
      | none => q.mem
    let head' :=
      match prev_node with
      | some _ => q.head
      | none => some node2
    let m2 :=
      match next_node with
      | some nx => upd m1 nx { m1 nx with prev := some node1 }
      | none => m1
    let tail' :=
      match next_node with
      | some _ => q.tail
      | none => some node1
    let m3 := upd m2 node2 { m2 node2 with prev := prev_node, next := some node1 }
    let m4 := upd m3 node1 { m3 node1 with prev := some node2, next := next_node }
    { q with mem := m4, head := head', tail := tail' }

/-- Head-to-tail collection of node references (`temp = self.head;
while temp: nodes.append(temp); temp = temp.next`).  The Python loop
terminates because well-formed chains are finite; the fuel argument makes
this explicit — on a well-formed queue, fuel `size` is exact. -/
def DoublyLinkedList.collect (q : DoublyLinkedList) : Option Nat → Nat → List Nat
  | none, _ => []
  | some _, 0 => []
  | some i, fuel + 1 => i :: q.collect (q.mem i).next fuel

/-- One step `nodes[i], nodes[j] = nodes[j], nodes[i]` of the Fisher-Yates
loop (both indices are in range whenever `shuffle` performs a swap). -/
def swapIdx {α} (l : List α) (i j : Nat) : List α :=
  match l[i]?, l[j]? with
  | some a, some b => (l.set i b).set j a
  | _, _ => l

/-- The loop `for i in range(n - 1, 0, -1): j = random.randint(0, i);
nodes[i], nodes[j] = nodes[j], nodes[i]`.  `js` is the stream of random
draws; `randint(0, i)` returns exactly the values of the form `j % (i + 1)`,
so quantifying over all `js` covers every possible run of the loop. -/
def fyLoop : List Nat → Nat → List Nat → List Nat
  | l, 0, _ => l
  | l, _ + 1, [] => l
  | l, k + 1, j :: js => fyLoop (swapIdx l (k + 1) (j % (k + 2))) k js

/-- The relink loop of `shuffle`: `for k in range(n): if k > 0:
nodes[k].prev = nodes[k-1]; if k < n - 1: nodes[k].next = nodes[k+1]`,
threading the predecessor of the element under consideration. -/
def relink (m : Nat → Node) : Option Nat → List Nat → (Nat → Node)
  | _, [] => m
  | pr, a :: rest =>
    let m1 :=
      match pr with
      | none => m
      | some p => upd m a { m a with prev := some p }
    let m2 :=
      match rest.head? with
      | none => m1
      | some b => upd m1 a { m1 a with next := some b }
    relink m2 (some a) rest

/-- The relink phase of `shuffle`: `self.head = nodes[0]; self.tail =
nodes[-1]; self.head.prev = None; self.tail.next = None` followed by the
relink loop.  The `[]` branch is unreachable when `size ≥ 2` on a
well-formed queue (Python's `nodes[0]` would raise on an empty
collection). -/
def shuffleRelink (q : DoublyLinkedList) : List Nat → DoublyLinkedList
  | [] => q
  | h :: rest =>
    let t := (h :: rest).getLast (List.cons_ne_nil h rest)
    let m0 := upd q.mem h { q.mem h with prev := none }
    let m1 := upd m0 t { m0 t with next := none }
    let m2 := relink m1 none (h :: rest)
    { q with mem := m2, head := some h, tail := some t }

/-- `shuffle`: Fisher-Yates over the collected node references followed by
the relink phase; `current` is not touched. -/
def DoublyLinkedList.shuffle (q : DoublyLinkedList) (js : List Nat) : DoublyLinkedList :=
  if q.size < 2 then q
  else
    let nodes := q.collect q.head q.size
    shuffleRelink q (fyLoop nodes (nodes.length - 1) js)

/-- The head-to-tail song sequence of the queue (the collection loop of
`show_queue`). -/
def DoublyLinkedList.track_list (q : DoublyLinkedList) : List Song :=
  (q.collect q.head q.size).map fun i => (q.mem i).data

/-- Abstraction of `pygame.mixer.music` (the external AudioBackend):
stopped / playing / paused. -/
inductive MixerState
  | idle
  | playing
  | paused
deriving DecidableEq

/-- The engine-relevant state of `HarmoniaApp` (dependencies available,
i.e. `HAS_DEPS` holds).  Library scanning, playlist persistence, widgets
and timers are external; `selection` is the treeview selection already
resolved to a song of the current view (`none` when nothing is selected or
no view song matches the selected row), and `mixer_ever_played` abstracts
`pygame.mixer.music.get_pos() != -1`. -/
structure HarmoniaApp where
  queue : DoublyLinkedList
  history : Stack Nat
  current_view_songs : List Song
  selection : Option Song
  is_looping : Bool
  is_shuffled : Bool
  is_playing : Bool
  mixer : MixerState
  mixer_ever_played : Bool
  now_playing : Option Song

/-- `play_current`: loads and plays the current node's song and updates the
now-playing display (`none` renders as "Not Playing"); duration probing,
highlighting and the end-of-track poll are external/UI effects. -/
def HarmoniaApp.play_current (a : HarmoniaApp) : HarmoniaApp :=
  match a.queue.current with
  | none => a
  | some i =>
    { a with is_playing := true, mixer := .playing, mixer_ever_played := true,
             now_playing := some ((a.queue.mem i).data) }

/-- One iteration of the clear-and-append loop shared by
`play_specific_song` and the unshuffle branch of `toggle_shuffle`: append
the view song, remembering the appended node when the song equals the
`target` (the Python `if s == song: start_node = self.queue.tail`). -/
def rebuildStep (target : Option Song) (acc : DoublyLinkedList × Option Nat)
    (s : Song) : DoublyLinkedList × Option Nat :=
  let q2 := acc.1.append s
  (q2, if target = some s then q2.tail else acc.2)

/-- The clear-and-append loop shared by `play_specific_song` and the
unshuffle branch of `toggle_shuffle`: rebuild the queue from the current
view, remembering the node appended for the last view song equal to
`target`. -/
def rebuildFromView (q : DoublyLinkedList) (view : List Song) (target : Option Song) :
    DoublyLinkedList × Option Nat :=
  view.foldl (rebuildStep target) (q.clear, none)

def HarmoniaApp.play_specific_song (a : HarmoniaApp) (song : Song) (js : List Nat) :
    HarmoniaApp :=
  let r := rebuildFromView a.queue a.current_view_songs (some song)
  let q1 := { r.1 with current := r.2 }
  let q2 := if a.is_shuffled then q1.shuffle js else q1
  ({ a with queue := q2 }).play_current

/-- The treeview-selection trigger of `toggle_play`:
`selected_song and (not self.queue.current or
self.queue.current.data != selected_song)`. -/
def HarmoniaApp.sel_starts_new (a : HarmoniaApp) (s : Song) : Bool :=
  match a.queue.current with
  | none => true
  | some c => (a.queue.mem c).data != s

/-- The body of `toggle_play` after the treeview-selection branch. -/
def HarmoniaApp.toggle_play_noselect (a : HarmoniaApp) (js : List Nat) : HarmoniaApp :=
  if a.is_playing then
    { a with is_playing := false,
             mixer := match a.mixer with | .playing => .paused | s => s }
  else
    if a.queue.current.isSome && a.mixer_ever_played then
      { a with is_playing := true, mixer := .playing }
    else
      match a.current_view_songs with
      | [] => a
      | s :: _ => a.play_specific_song s js

def HarmoniaApp.toggle_play (a : HarmoniaApp) (js : List Nat) : HarmoniaApp :=
  match a.selection with
  | some s =>
    if a.sel_starts_new s then a.play_specific_song s js
    else a.toggle_play_noselect js
  | none => a.toggle_play_noselect js

def HarmoniaApp.play_next (a : HarmoniaApp) : HarmoniaApp :=
  match a.queue.current with
  | none => a
  | some c =>
    let a1 := { a with history := a.history.push c }
    match (a1.queue.mem c).next with
    | some nxt => ({ a1 with queue := { a1.queue with current := some nxt } }).play_current
    | none =>
      if a1.is_looping then
        ({ a1 with queue := { a1.queue with current := a1.queue.head } }).play_current
      else
        { a1 with is_playing := false }

def HarmoniaApp.play_prev (a : HarmoniaApp) : HarmoniaApp :=
  if a.history.is_empty = false then
    let p := a.history.pop
    ({ a with history := p.2, queue := { a.queue with current := p.1 } }).play_current
  else
    match a.queue.current with
    | none => a
    | some c =>
      match (a.queue.mem c).prev with
      | none => a
      | some pr => ({ a with queue := { a.queue with current := some pr } }).play_current

def HarmoniaApp.toggle_shuffle (a : HarmoniaApp) (js : List Nat) : HarmoniaApp :=
  let sh := !a.is_shuffled
  if sh then
    { a with is_shuffled := sh, queue := a.queue.shuffle js }
  else
    let current_data := a.queue.current.map fun i => (a.queue.mem i).data
    let r := rebuildFromView a.queue a.current_view_songs current_data
    { a with is_shuffled := sh, queue := { r.1 with current := r.2 } }

/-- `remove_from_queue_ui`: the trailing `show_queue` call re-derives the
displayed view from the queue. -/
def HarmoniaApp.remove_from_queue_ui (a : HarmoniaApp) (index : Nat) : HarmoniaApp :=
  match a.queue.get_node_at_index index with
  | none => a
  | some i =>
    let is_current := a.queue.current = some i
    let a1 := { a with queue := a.queue.remove_node i }
    let a2 :=
      if is_current ∧ a.is_playing = true then
        { a1 with is_playing := false, mixer := .idle, now_playing := none }
      else a1
    { a2 with current_view_songs := a2.queue.track_list }

/-- Adjacent-pairs predicate (an executable rendering of `List.Chain'`,
with which it is identified by `chainP_iff_chain'`). -/
def ChainP (R : Nat → Nat → Prop) : List Nat → Prop
  | [] => True
  | [_] => True
  | a :: b :: rest => R a b ∧ ChainP R (b :: rest)

instance instDecChainP {R : Nat → Nat → Prop} [DecidableRel R] :
    (l : List Nat) → Decidable (ChainP R l)
  | [] => isTrue trivial
  | [_] => isTrue trivial
  | a :: b :: rest =>
    haveI := instDecChainP (R := R) (b :: rest)
    inferInstanceAs (Decidable (R a b ∧ ChainP R (b :: rest)))

theorem chainP_iff_chain' (R : Nat → Nat → Prop) :
    ∀ l : List Nat, ChainP R l ↔ List.Chain' R l
  | [] => by simp [ChainP]
  | [a] => by simp [ChainP]
  | a :: b :: rest => by
    rw [List.chain'_cons, ChainP, chainP_iff_chain' R (b :: rest)]

/-! ## Well-formedness

`WF q l` states that `q` is a structurally valid doubly linked list whose
head-to-tail node sequence is `l`: the arena addresses in `l` are allocated
and pairwise distinct, `head`/`tail` are the ends of `l`, every interior
link matches adjacency in `l`, the outer links of the endpoints are absent,
`size` counts the chain, and `current` is absent or a member of the
chain. -/
def WF (q : DoublyLinkedList) (l : List Nat) : Prop :=
  l.Nodup ∧
  (∀ a ∈ l, a < q.fresh) ∧
  q.head = l.head? ∧
  q.tail = l.getLast? ∧
  ChainP (fun a b => (q.mem a).next = some b) l ∧
  ChainP (fun a b => (q.mem b).prev = some a) l ∧
  (∀ a ∈ l.head?.toList, (q.mem a).prev = none) ∧
  (∀ a ∈ l.getLast?.toList, (q.mem a).next = none) ∧
  q.size = l.length ∧
  (∀ c ∈ q.current.toList, c ∈ l)

instance (q : DoublyLinkedList) (l : List Nat) : Decidable (WF q l) :=
  inferInstanceAs (Decidable (_ ∧ _ ∧ _ ∧ _ ∧ _ ∧ _ ∧ _ ∧ _ ∧ _ ∧ _))

/-! ## Arena and chain lemmas -/

theorem upd_same (m : Nat → Node) (i : Nat) (v : Node) : upd m i v i = v := by
  simp [upd]

theorem upd_ne (m : Nat → Node) (i : Nat) (v : Node) {j : Nat} (h : j ≠ i) :
    upd m i v j = m j := by
  simp [upd, h]

/-- Field-level description of `remove_node` when the removed node is not
its own neighbour and its two neighbours differ (all automatic on a
well-formed queue). -/
theorem remove_node_spec (q : DoublyLinkedList) (i : Nat)
    (hpi : (q.mem i).prev ≠ some i) (hni : (q.mem i).next ≠ some i)
    (hpn : ∀ p nx, (q.mem i).prev = some p → (q.mem i).next = some nx → p ≠ nx) :
    (q.remove_node i).fresh = q.fresh ∧
    (q.remove_node i).size = q.size - 1 ∧
    (q.remove_node i).head = (if q.head = some i then (q.mem i).next else q.head) ∧
    (q.remove_node i).tail = (if q.tail = some i then (q.mem i).prev else q.tail) ∧
    ((q.remove_node i).current =
      if q.current = some i then
        match (q.mem i).next with
        | some nxt => some nxt
        | none => (q.mem i).prev
      else q.current) ∧
    (∀ x, x ≠ i → (q.mem i).prev ≠ some x → (q.mem i).next ≠ some x →
      (q.remove_node i).mem x = q.mem x) ∧
    (∀ p, (q.mem i).prev = some p →
      (q.remove_node i).mem p = { q.mem p with next := (q.mem i).next }) ∧
    (∀ nx, (q.mem i).next = some nx →
      (q.remove_node i).mem nx = { q.mem nx with prev := (q.mem i).prev }) := by
  rcases hp : (q.mem i).prev with _ | p <;> rcases hn : (q.mem i).next with _ | nx
  · refine ⟨rfl, rfl, ?_, ?_, ?_, ?_, ?_, ?_⟩
    · simp only [DoublyLinkedList.remove_node, hp, hn]
    · simp only [DoublyLinkedList.remove_node, hp, hn]
    · simp only [DoublyLinkedList.remove_node, hp, hn]
    · intro x hx _ _
      simp only [DoublyLinkedList.remove_node, hp, hn, upd_ne _ _ _ hx]
    · intro p hp2
      simp at hp2
    · intro nx hn2
      simp at hn2
  · have hin : i ≠ nx := fun he => hni (hn.trans (by rw [he]))
    refine ⟨rfl, rfl, ?_, ?_, ?_, ?_, ?_, ?_⟩
    · simp only [DoublyLinkedList.remove_node, hp, hn]
    · simp only [DoublyLinkedList.remove_node, hp, hn]
    · simp only [DoublyLinkedList.remove_node, hp, hn, upd_ne _ _ _ hin]
    · intro x hx _ hnx
      have hxn : x ≠ nx := fun he => hnx (by rw [he])
      simp only [DoublyLinkedList.remove_node, hp, hn, upd_ne _ _ _ hx,
        upd_ne _ _ _ hxn]
    · intro p hp2
      simp at hp2
    · intro nx' hn2
      injection hn2 with hn2
      subst hn2
      have hni2 : nx ≠ i := fun he => hin he.symm
      simp only [DoublyLinkedList.remove_node, hp, hn, upd_ne _ _ _ hni2, upd_same]
  · have hip : i ≠ p := fun he => hpi (hp.trans (by rw [he]))
    refine ⟨rfl, rfl, ?_, ?_, ?_, ?_, ?_, ?_⟩
    · simp only [DoublyLinkedList.remove_node, hp, hn]
    · simp only [DoublyLinkedList.remove_node, hp, hn]
    · simp only [DoublyLinkedList.remove_node, hp, hn, upd_ne _ _ _ hip]
    · intro x hx hpx _
      have hxp : x ≠ p := fun he => hpx (by rw [he])
      simp only [DoublyLinkedList.remove_node, hp, hn, upd_ne _ _ _ hx,
        upd_ne _ _ _ hxp]
    · intro p' hp2
      injection hp2 with hp2
      subst hp2
      have hpi2 : p ≠ i := fun he => hip he.symm
      simp only [DoublyLinkedList.remove_node, hp, hn, upd_ne _ _ _ hpi2, upd_same]
    · intro nx hn2
      simp at hn2
  · have hip : i ≠ p := fun he => hpi (hp.trans (by rw [he]))
    have hin : i ≠ nx := fun he => hni (hn.trans (by rw [he]))
    have hpnx : p ≠ nx := hpn p nx hp hn
    have hnp : nx ≠ p := fun he => hpnx he.symm
    refine ⟨rfl, rfl, ?_, ?_, ?_, ?_, ?_, ?_⟩
    · simp only [DoublyLinkedList.remove_node, hp, hn]
    · simp only [DoublyLinkedList.remove_node, hp, hn]
    · simp only [DoublyLinkedList.remove_node, hp, hn, upd_ne _ _ _ hin,
        upd_ne _ _ _ hip]
    · intro x hx hpx hnx
      have hxp : x ≠ p := fun he => hpx (by rw [he])
      have hxn : x ≠ nx := fun he => hnx (by rw [he])
      simp only [DoublyLinkedList.remove_node, hp, hn, upd_ne _ _ _ hx,
        upd_ne _ _ _ hxn, upd_ne _ _ _ hxp]
    · intro p' hp2
      injection hp2 with hp2
      subst hp2
      have hpi2 : p ≠ i := fun he => hip he.symm
      have hpnx2 : p ≠ nx := hpnx
      simp only [DoublyLinkedList.remove_node, hp, hn, upd_ne _ _ _ hpi2,
        upd_ne _ _ _ hpnx2, upd_same]
    · intro nx' hn2
      injection hn2 with hn2
      subst hn2
      have hni2 : nx ≠ i := fun he => hin he.symm
      have hnp2 : nx ≠ p := hnp
      simp only [DoublyLinkedList.remove_node, hp, hn, upd_ne _ _ _ hni2,
        upd_ne _ _ _ hnp2, upd_same]

/-- Field-level description of `swap_nodes` on two adjacent nodes whose
surrounding nodes are all distinct (automatic on a well-formed queue). -/
theorem swap_nodes_spec (q : DoublyLinkedList) (i j : Nat)
    (hij : (q.mem i).next = some j) (hij_ne : i ≠ j)
    (hpi : (q.mem i).prev ≠ some i) (hpj : (q.mem i).prev ≠ some j)
    (hni : (q.mem j).next ≠ some i) (hnj : (q.mem j).next ≠ some j)
    (hpn : ∀ p nx, (q.mem i).prev = some p → (q.mem j).next = some nx → p ≠ nx) :
    (q.swap_nodes i j).fresh = q.fresh ∧
    (q.swap_nodes i j).size = q.size ∧
    (q.swap_nodes i j).current = q.current ∧
    ((q.swap_nodes i j).head =
      match (q.mem i).prev with | some _ => q.head | none => some j) ∧
    ((q.swap_nodes i j).tail =
      match (q.mem j).next with | some _ => q.tail | none => some i) ∧
    ((q.swap_nodes i j).mem i =
      { q.mem i with prev := some j, next := (q.mem j).next }) ∧
    ((q.swap_nodes i j).mem j =
      { q.mem j with prev := (q.mem i).prev, next := some i }) ∧
    (∀ x, x ≠ i → x ≠ j → (q.mem i).prev ≠ some x → (q.mem j).next ≠ some x →
      (q.swap_nodes i j).mem x = q.mem x) ∧
    (∀ p, (q.mem i).prev = some p →
      (q.swap_nodes i j).mem p = { q.mem p with next := some j }) ∧
    (∀ nx, (q.mem j).next = some nx →
      (q.swap_nodes i j).mem nx = { q.mem nx with prev := some i }) := by
  have hguard : ¬((q.mem i).next ≠ some j) := not_not_intro hij
  have hji : j ≠ i := fun he => hij_ne he.symm
  rcases hp : (q.mem i).prev with _ | p <;> rcases hn : (q.mem j).next with _ | nx
  · refine ⟨?_, ?_, ?_, ?_, ?_, ?_, ?_, ?_, ?_, ?_⟩
    · simp only [DoublyLinkedList.swap_nodes, if_neg hguard]
    · simp only [DoublyLinkedList.swap_nodes, if_neg hguard]
    · simp only [DoublyLinkedList.swap_nodes, if_neg hguard]
    · simp only [DoublyLinkedList.swap_nodes, if_neg hguard, hp, hn]
    · simp only [DoublyLinkedList.swap_nodes, if_neg hguard, hp, hn]
    · simp only [DoublyLinkedList.swap_nodes, if_neg hguard, hp, hn,
        upd_same, upd_ne _ _ _ hij_ne]
    · simp only [DoublyLinkedList.swap_nodes, if_neg hguard, hp, hn,
        upd_same, upd_ne _ _ _ hji]
    · intro x hx1 hx2 _ _
      simp only [DoublyLinkedList.swap_nodes, if_neg hguard, hp, hn,
        upd_ne _ _ _ hx1, upd_ne _ _ _ hx2]
    · intro p hp2
      simp at hp2
    · intro nx hn2
      simp at hn2
  · have hnxi : nx ≠ i := fun he => hni (hn.trans (by rw [he]))
    have hnxj : nx ≠ j := fun he => hnj (hn.trans (by rw [he]))
    have hinx : i ≠ nx := fun he => hnxi he.symm
    have hjnx : j ≠ nx := fun he => hnxj he.symm
    refine ⟨?_, ?_, ?_, ?_, ?_, ?_, ?_, ?_, ?_, ?_⟩
    · simp only [DoublyLinkedList.swap_nodes, if_neg hguard]
    · simp only [DoublyLinkedList.swap_nodes, if_neg hguard]
    · simp only [DoublyLinkedList.swap_nodes, if_neg hguard]
    · simp only [DoublyLinkedList.swap_nodes, if_neg hguard, hp, hn]
    · simp only [DoublyLinkedList.swap_nodes, if_neg hguard, hp, hn]
    · simp only [DoublyLinkedList.swap_nodes, if_neg hguard, hp, hn,
        upd_same, upd_ne _ _ _ hij_ne, upd_ne _ _ _ hinx]
    · simp only [DoublyLinkedList.swap_nodes, if_neg hguard, hp, hn,
        upd_same, upd_ne _ _ _ hji, upd_ne _ _ _ hjnx]
    · intro x hx1 hx2 _ hx4
      have hxnx : x ≠ nx := fun he => hx4 (by rw [he])
      simp only [DoublyLinkedList.swap_nodes, if_neg hguard, hp, hn,
        upd_ne _ _ _ hx1, upd_ne _ _ _ hx2, upd_ne _ _ _ hxnx]
    · intro p hp2
      simp at hp2
    · intro nx' hn2
      injection hn2 with hn2
      subst hn2
      simp only [DoublyLinkedList.swap_nodes, if_neg hguard, hp, hn,
        upd_same, upd_ne _ _ _ hnxi, upd_ne _ _ _ hnxj]
  · have hpi' : p ≠ i := fun he => hpi (hp.trans (by rw [he]))
    have hpj' : p ≠ j := fun he => hpj (hp.trans (by rw [he]))
    have hip : i ≠ p := fun he => hpi' he.symm
    have hjp : j ≠ p := fun he => hpj' he.symm
    refine ⟨?_, ?_, ?_, ?_, ?_, ?_, ?_, ?_, ?_, ?_⟩
    · simp only [DoublyLinkedList.swap_nodes, if_neg hguard]
    · simp only [DoublyLinkedList.swap_nodes, if_neg hguard]
    · simp only [DoublyLinkedList.swap_nodes, if_neg hguard]
    · simp only [DoublyLinkedList.swap_nodes, if_neg hguard, hp, hn]
    · simp only [DoublyLinkedList.swap_nodes, if_neg hguard, hp, hn]
    · simp only [DoublyLinkedList.swap_nodes, if_neg hguard, hp, hn,
        upd_same, upd_ne _ _ _ hij_ne, upd_ne _ _ _ hip]
    · simp only [DoublyLinkedList.swap_nodes, if_neg hguard, hp, hn,
        upd_same, upd_ne _ _ _ hji, upd_ne _ _ _ hjp]
    · intro x hx1 hx2 hx3 _
      have hxp : x ≠ p := fun he => hx3 (by rw [he])
      simp only [DoublyLinkedList.swap_nodes, if_neg hguard, hp, hn,
        upd_ne _ _ _ hx1, upd_ne _ _ _ hx2, upd_ne _ _ _ hxp]
    · intro p' hp2
      injection hp2 with hp2
      subst hp2
      simp only [DoublyLinkedList.swap_nodes, if_neg hguard, hp, hn,
        upd_same, upd_ne _ _ _ hpi', upd_ne _ _ _ hpj']
    · intro nx hn2
      simp at hn2
  · have hpi' : p ≠ i := fun he => hpi (hp.trans (by rw [he]))
    have hpj' : p ≠ j := fun he => hpj (hp.trans (by rw [he]))
    have hip : i ≠ p := fun he => hpi' he.symm
    have hjp : j ≠ p := fun he => hpj' he.symm
    have hnxi : nx ≠ i := fun he => hni (hn.trans (by rw [he]))
    have hnxj : nx ≠ j := fun he => hnj (hn.trans (by rw [he]))
    have hinx : i ≠ nx := fun he => hnxi he.symm
    have hjnx : j ≠ nx := fun he => hnxj he.symm
    have hpnx : p ≠ nx := hpn p nx hp hn
    have hnxp : nx ≠ p := fun he => hpnx he.symm
    refine ⟨?_, ?_, ?_, ?_, ?_, ?_, ?_, ?_, ?_, ?_⟩
    · simp only [DoublyLinkedList.swap_nodes, if_neg hguard]
    · simp only [DoublyLinkedList.swap_nodes, if_neg hguard]
    · simp only [DoublyLinkedList.swap_nodes, if_neg hguard]
    · simp only [DoublyLinkedList.swap_nodes, if_neg hguard, hp, hn]
    · simp only [DoublyLinkedList.swap_nodes, if_neg hguard, hp, hn]
    · simp only [DoublyLinkedList.swap_nodes, if_neg hguard, hp, hn,
        upd_same, upd_ne _ _ _ hij_ne, upd_ne _ _ _ hinx, upd_ne _ _ _ hip]
    · simp only [DoublyLinkedList.swap_nodes, if_neg hguard, hp, hn,
        upd_same, upd_ne _ _ _ hji, upd_ne _ _ _ hjnx, upd_ne _ _ _ hjp]
    · intro x hx1 hx2 hx3 hx4
      have hxp : x ≠ p := fun he => hx3 (by rw [he])
      have hxnx : x ≠ nx := fun he => hx4 (by rw [he])
      simp only [DoublyLinkedList.swap_nodes, if_neg hguard, hp, hn,
        upd_ne _ _ _ hx1, upd_ne _ _ _ hx2, upd_ne _ _ _ hxp, upd_ne _ _ _ hxnx]
    · intro p' hp2
      injection hp2 with hp2
      subst hp2
      simp only [DoublyLinkedList.swap_nodes, if_neg hguard, hp, hn,
        upd_same, upd_ne _ _ _ hpi', upd_ne _ _ _ hpj', upd_ne _ _ _ hpnx]
    · intro nx' hn2
      injection hn2 with hn2
      subst hn2
      simp only [DoublyLinkedList.swap_nodes, if_neg hguard, hp, hn,
        upd_same, upd_ne _ _ _ hnxi, upd_ne _ _ _ hnxj, upd_ne _ _ _ hnxp]

/-- A `next`-chain only looks at the `next` fields of the non-final
elements. -/
theorem chain_next_congr {f g : Nat → Node} (l : List Nat) :
    (∀ a ∈ l.dropLast, (g a).next = (f a).next) →
    List.Chain' (fun a b => (f a).next = some b) l →
    List.Chain' (fun a b => (g a).next = some b) l := by
  induction l with
  | nil => intro _ _; exact List.chain'_nil
  | cons a rest ih =>
    intro h hc
    cases rest with
    | nil => exact List.chain'_singleton a
    | cons b rest' =>
      rw [List.chain'_cons] at hc ⊢
      rw [List.dropLast_cons₂] at h
      refine ⟨?_, ih (fun x hx => h x (List.mem_cons_of_mem _ hx)) hc.2⟩
      rw [h a (List.mem_cons_self a _), hc.1]

/-- A `prev`-chain only looks at the `prev` fields of the non-initial
elements. -/
theorem chain_prev_congr {f g : Nat → Node} (l : List Nat) :
    (∀ a ∈ l.tail, (g a).prev = (f a).prev) →
    List.Chain' (fun a b => (f b).prev = some a) l →
    List.Chain' (fun a b => (g b).prev = some a) l := by
  induction l with
  | nil => intro _ _; exact List.chain'_nil
  | cons a rest ih =>
    intro h hc
    cases rest with
    | nil => exact List.chain'_singleton a
    | cons b rest' =>
      rw [List.chain'_cons] at hc ⊢
      refine ⟨?_, ih ?_ hc.2⟩
      · rw [h b (List.mem_cons_self b _), hc.1]
      · intro x hx
        exact h x (List.mem_cons_of_mem _ hx)

/-- On a well-formed queue, the `next` pointer of a chain element is the
head of the rest of the chain. -/
theorem WF_next_at_split {q : DoublyLinkedList} {l₁ l₂ : List Nat} {i : Nat}
    (h : WF q (l₁ ++ i :: l₂)) : (q.mem i).next = l₂.head? := by
  obtain ⟨-, -, -, -, hnext, -, -, hlast, -, -⟩ := h
  rw [chainP_iff_chain', List.chain'_append] at hnext
  obtain ⟨-, hc2, -⟩ := hnext
  cases l₂ with
  | nil =>
    have hg : (l₁ ++ [i]).getLast? = some i := List.getLast?_concat _
    simpa using hlast i (by simp [hg])
  | cons b l₂' =>
    rw [List.chain'_cons] at hc2
    exact hc2.1

/-- On a well-formed queue, the `prev` pointer of a chain element is the
last of the part of the chain before it. -/
theorem WF_prev_at_split {q : DoublyLinkedList} {l₁ l₂ : List Nat} {i : Nat}
    (h : WF q (l₁ ++ i :: l₂)) : (q.mem i).prev = l₁.getLast? := by
  obtain ⟨-, -, -, -, -, hprev, hhead, -, -, -⟩ := h
  rw [chainP_iff_chain', List.chain'_append] at hprev
  obtain ⟨-, -, hcross⟩ := hprev
  cases hl : l₁.getLast? with
  | some p => exact hcross p hl i rfl
  | none =>
    have h0 : l₁ = [] := by simpa using hl
    subst h0
    simpa using hhead i (by simp)

theorem collect_eq (q : DoublyLinkedList) (l : List Nat) :
    List.Chain' (fun a b => (q.mem a).next = some b) l →
    (∀ a ∈ l.getLast?.toList, (q.mem a).next = none) →
    q.collect l.head? l.length = l := by
  induction l with
  | nil => intro _ _; rfl
  | cons a rest ih =>
    intro hc hlast
    show q.collect (some a) (rest.length + 1) = a :: rest
    have hnext : (q.mem a).next = rest.head? := by
      cases rest with
      | nil => simpa using hlast a (by simp)
      | cons b rest' => rw [List.chain'_cons] at hc; exact hc.1
    have hrest : q.collect rest.head? rest.length = rest := by
      apply ih
      · cases rest with
        | nil => exact List.chain'_nil
        | cons b rest' => rw [List.chain'_cons] at hc; exact hc.2
      · cases rest with
        | nil => simp
        | cons b rest' => simpa using hlast
    simp only [DoublyLinkedList.collect, hnext, hrest]

theorem WF_collect {q : DoublyLinkedList} {l : List Nat} (h : WF q l) :
    q.collect q.head q.size = l := by
  obtain ⟨-, -, hhead, -, hnext, -, -, hlast, hsize, -⟩ := h.imp id id
  rw [hhead, hsize]
  exact collect_eq q l (by rwa [chainP_iff_chain'] at hnext) hlast

theorem WF_track_list {q : DoublyLinkedList} {l : List Nat} (h : WF q l) :
    q.track_list = l.map fun i => (q.mem i).data := by
  unfold DoublyLinkedList.track_list
  rw [WF_collect h]

theorem walk_eq (q : DoublyLinkedList) (l : List Nat) :
    List.Chain' (fun a b => (q.mem a).next = some b) l →
    ∀ k, k < l.length → q.walk l.head? k = l.get? k := by
  induction l with
  | nil => intro _ k hk; simp at hk
  | cons a rest ih =>
    intro hc k hk
    cases k with
    | zero => rfl
    | succ k' =>
      cases rest with
      | nil => simp at hk
      | cons b rest' =>
        rw [List.chain'_cons] at hc
        show q.walk (q.mem a).next k' = (b :: rest').get? k'
        rw [hc.1]
        exact ih hc.2 k' (by simpa using hk)

theorem WF_get_node_at_index {q : DoublyLinkedList} {l : List Nat} (h : WF q l)
    {k : Nat} (hk : k < l.length) : q.get_node_at_index k = l.get? k := by
  obtain ⟨-, -, hhead, -, hnext, -, -, -, hsize, -⟩ := h.imp id id
  unfold DoublyLinkedList.get_node_at_index
  rw [hsize, if_neg (by omega), hhead]
  exact walk_eq q l (by rwa [chainP_iff_chain'] at hnext) k hk

theorem getLast?_append_cons {α : Type} (l t : List α) (a : α) :
    (l ++ a :: t).getLast? = (a :: t).getLast? := by
  rw [List.getLast?_append]
  cases hgl : (a :: t).getLast? with
  | none => simp at hgl
  | some g => rfl

theorem getLast_not_mem_dropLast {l : List Nat} (hnd : l.Nodup) (h : l ≠ []) :
    l.getLast h ∉ l.dropLast := by
  rw [← List.dropLast_append_getLast h] at hnd
  intro hx
  exact List.disjoint_of_nodup_append hnd hx (by simp)

theorem opt_mem_toList {o : Option Nat} {c : Nat} (hc : c ∈ o.toList) :
    o = some c := by
  cases o with
  | none => simp at hc
  | some x => simp at hc; rw [hc]

/-! ## `remove_node` preserves well-formedness -/

theorem remove_node_WF {q : DoublyLinkedList} {l₁ l₂ : List Nat} {i : Nat}
    (h : WF q (l₁ ++ i :: l₂)) : WF (q.remove_node i) (l₁ ++ l₂) := by
  have hnext_i : (q.mem i).next = l₂.head? := WF_next_at_split h
  have hprev_i : (q.mem i).prev = l₁.getLast? := WF_prev_at_split h
  obtain ⟨hnd, hfr, hhead, htail, hnx, hpv, hhp, hln, hsz, hcur⟩ := h
  rw [chainP_iff_chain'] at hnx hpv
  have hmid : (i :: (l₁ ++ l₂)).Nodup := List.nodup_middle.mp hnd
  have hi_not : i ∉ l₁ ++ l₂ := (List.nodup_cons.mp hmid).1
  have hnd' : (l₁ ++ l₂).Nodup := (List.nodup_cons.mp hmid).2
  have hi1 : i ∉ l₁ := fun hx => hi_not (List.mem_append_left _ hx)
  have hi2 : i ∉ l₂ := fun hx => hi_not (List.mem_append_right _ hx)
  have hdisj : l₁.Disjoint l₂ := List.disjoint_of_nodup_append hnd'
  have hpi : (q.mem i).prev ≠ some i := by
    rw [hprev_i]
    intro he
    exact hi1 (List.mem_of_getLast?_eq_some he)
  have hni : (q.mem i).next ≠ some i := by
    rw [hnext_i]
    intro he
    exact hi2 (List.mem_of_mem_head? he)
  have hpn : ∀ p nx, (q.mem i).prev = some p → (q.mem i).next = some nx → p ≠ nx := by
    intro p nx hp2 hn2 he
    rw [hprev_i] at hp2
    rw [hnext_i] at hn2
    exact hdisj (List.mem_of_getLast?_eq_some hp2) (he ▸ List.mem_of_mem_head? hn2)
  obtain ⟨hfr', hsz', hhd', htl', hcur', hF1, hF2, hF3⟩ :=
    remove_node_spec q i hpi hni hpn
  have hkeep : ∀ x ∈ l₁ ++ l₂, l₁.getLast? ≠ some x → l₂.head? ≠ some x →
      (q.remove_node i).mem x = q.mem x := by
    intro x hx hgx hhx
    refine hF1 x (fun he => hi_not (he ▸ hx)) ?_ ?_
    · rw [hprev_i]; exact hgx
    · rw [hnext_i]; exact hhx
  have hnext_keep : ∀ x ∈ l₁ ++ l₂, l₁.getLast? ≠ some x →
      ((q.remove_node i).mem x).next = (q.mem x).next := by
    intro x hx hgx
    by_cases hhx : l₂.head? = some x
    · rw [hF3 x (by rw [hnext_i]; exact hhx)]
    · rw [hkeep x hx hgx hhx]
  have hprev_keep : ∀ x ∈ l₁ ++ l₂, l₂.head? ≠ some x →
      ((q.remove_node i).mem x).prev = (q.mem x).prev := by
    intro x hx hhx
    by_cases hgx : l₁.getLast? = some x
    · rw [hF2 x (by rw [hprev_i]; exact hgx)]
    · rw [hkeep x hx hgx hhx]
  have hgl1 : ∀ x ∈ l₁.dropLast, l₁.getLast? ≠ some x := by
    intro x hx he
    have hne : l₁ ≠ [] := by rintro rfl; simp at hx
    have hxg : x = l₁.getLast hne := by
      rw [List.getLast?_eq_getLast _ hne] at he
      exact (Option.some.inj he).symm
    exact getLast_not_mem_dropLast hnd'.of_append_left hne (hxg ▸ hx)
  have hgl2 : ∀ x ∈ l₂, l₁.getLast? ≠ some x :=
    fun x hx he => hdisj (List.mem_of_getLast?_eq_some he) hx
  have hh1 : ∀ x ∈ l₁, l₂.head? ≠ some x :=
    fun x hx he => hdisj hx (List.mem_of_mem_head? he)
  have hhd2 : ∀ x ∈ l₂.tail, l₂.head? ≠ some x := by
    intro x hx he
    have hcons := List.eq_cons_of_mem_head? he
    have hnd2 : l₂.Nodup := hnd'.of_append_right
    rw [hcons] at hnd2
    exact (List.nodup_cons.mp hnd2).1 hx
  have hsub : ∀ x ∈ l₁ ++ l₂, x ∈ l₁ ++ i :: l₂ := by
    intro x hx
    rcases List.mem_append.mp hx with hx | hx
    · exact List.mem_append_left _ hx
    · exact List.mem_append_right _ (List.mem_cons_of_mem _ hx)
  obtain ⟨hnx1, hnx2', hnxcross⟩ := List.chain'_append.mp hnx
  obtain ⟨hpv1, hpv2', hpvcross⟩ := List.chain'_append.mp hpv
  have hnx2 : List.Chain' (fun a b => (q.mem a).next = some b) l₂ := hnx2'.tail
  have hpv2 : List.Chain' (fun a b => (q.mem b).prev = some a) l₂ := hpv2'.tail
  refine ⟨hnd', ?_, ?_, ?_, ?_, ?_, ?_, ?_, ?_, ?_⟩
  · intro x hx
    rw [hfr']
    exact hfr x (hsub x hx)
  · rw [hhd']
    cases l₁ with
    | nil =>
      have hqh : q.head = some i := by simpa using hhead
      rw [if_pos hqh, hnext_i]
      rfl
    | cons a l₁' =>
      have hai : a ≠ i := fun he => hi1 (he ▸ List.mem_cons_self a l₁')
      have hqh : q.head = some a := by simpa using hhead
      rw [if_neg (by rw [hqh]; simp [hai]), hqh]
      rfl
  · rw [htl']
    by_cases hl2e : l₂ = []
    · subst hl2e
      have hqt : q.tail = some i := by
        rw [htail]
        exact List.getLast?_concat _
      rw [if_pos hqt, hprev_i, List.append_nil]
    · cases hl2 : l₂.getLast? with
      | none => exact absurd (List.getLast?_eq_none_iff.mp hl2) hl2e
      | some g =>
        have hg2 : g ∈ l₂ := List.mem_of_getLast?_eq_some hl2
        have hgi : g ≠ i := fun he => hi2 (he ▸ hg2)
        have hqt : q.tail = some g := by
          rw [htail, show l₁ ++ i :: l₂ = (l₁ ++ [i]) ++ l₂ by simp,
            List.getLast?_append, hl2]
          rfl
        rw [if_neg (by rw [hqt]; simp [hgi]), hqt, List.getLast?_append, hl2]
        rfl
  · rw [chainP_iff_chain', List.chain'_append]
    refine ⟨?_, ?_, ?_⟩
    · apply chain_next_congr _ _ hnx1
      intro x hx
      exact hnext_keep x
        (List.mem_append_left _ (List.dropLast_subset _ hx)) (hgl1 x hx)
    · apply chain_next_congr _ _ hnx2
      intro x hx
      have hxl : x ∈ l₂ := List.dropLast_subset _ hx
      exact hnext_keep x (List.mem_append_right _ hxl) (hgl2 x hxl)
    · intro x hx y hy
      rw [hF2 x (by rw [hprev_i]; exact hx)]
      show (q.mem i).next = some y
      rw [hnext_i]
      exact hy
  · rw [chainP_iff_chain', List.chain'_append]
    refine ⟨?_, ?_, ?_⟩
    · apply chain_prev_congr _ _ hpv1
      intro x hx
      have hxl : x ∈ l₁ := List.tail_subset _ hx
      exact hprev_keep x (List.mem_append_left _ hxl) (hh1 x hxl)
    · apply chain_prev_congr _ _ hpv2
      intro x hx
      exact hprev_keep x
        (List.mem_append_right _ (List.tail_subset _ hx)) (hhd2 x hx)
    · intro x hx y hy
      rw [hF3 y (by rw [hnext_i]; exact hy)]
      show (q.mem i).prev = some x
      rw [hprev_i]
      exact hx
  · intro x hx
    cases l₁ with
    | nil =>
      cases l₂ with
      | nil => simp at hx
      | cons b l₂' =>
        simp at hx
        rw [hx, hF3 b (by rw [hnext_i]; rfl)]
        show (q.mem i).prev = none
        rw [hprev_i]
        rfl
    | cons a l₁' =>
      simp at hx
      rw [hx]
      rw [hprev_keep a (List.mem_append_left _ (List.mem_cons_self a l₁'))
        (hh1 a (List.mem_cons_self a l₁'))]
      simpa using hhp a (by simp)
  · intro x hx
    by_cases hl2e : l₂ = []
    · subst hl2e
      rw [List.append_nil] at hx
      cases hl1 : l₁.getLast? with
      | none => rw [hl1] at hx; simp at hx
      | some g =>
        rw [hl1] at hx
        simp at hx
        rw [hx, hF2 g (by rw [hprev_i]; exact hl1)]
        show (q.mem i).next = none
        rw [hnext_i]
        rfl
    · cases hl2 : l₂.getLast? with
      | none => exact absurd (List.getLast?_eq_none_iff.mp hl2) hl2e
      | some g =>
        rw [List.getLast?_append, hl2] at hx
        simp at hx
        have hg2 : g ∈ l₂ := List.mem_of_getLast?_eq_some hl2
        rw [hx, hnext_keep g (List.mem_append_right _ hg2) (hgl2 g hg2)]
        have hlast_orig : (l₁ ++ i :: l₂).getLast? = some g := by
          rw [show l₁ ++ i :: l₂ = (l₁ ++ [i]) ++ l₂ by simp,
            List.getLast?_append, hl2]
          rfl
        simpa using hln g (by rw [hlast_orig]; simp)
  · rw [hsz', hsz]
    simp
  · rw [hcur']
    by_cases hc : q.current = some i
    · rw [if_pos hc]
      cases hn2 : (q.mem i).next with
      | some nxt =>
        intro c hcm
        simp at hcm
        have hnx2m : nxt ∈ l₂ := List.mem_of_mem_head? (by rw [← hnext_i]; exact hn2)
        rw [hcm]
        exact List.mem_append_right _ hnx2m
      | none =>
        rw [hprev_i]
        cases hl1 : l₁.getLast? with
        | none => simp
        | some g =>
          intro c hcm
          simp at hcm
          rw [hcm]
          exact List.mem_append_left _ (List.mem_of_getLast?_eq_some hl1)
    · rw [if_neg hc]
      intro c hcm
      have hqc : q.current = some c := opt_mem_toList hcm
      have hci : c ≠ i := fun he => hc (by rw [hqc, he])
      have hcl := hcur c (by rw [hqc]; simp)
      rcases List.mem_append.mp hcl with h1 | h1
      · exact List.mem_append_left _ h1
      · rcases List.mem_cons.mp h1 with h1 | h1
        · exact absurd h1 hci
        · exact List.mem_append_right _ h1

/-! ## `swap_nodes` preserves well-formedness -/

theorem swap_nodes_WF {q : DoublyLinkedList} {l₁ l₂ : List Nat} {i j : Nat}
    (h : WF q (l₁ ++ i :: j :: l₂)) : WF (q.swap_nodes i j) (l₁ ++ j :: i :: l₂) := by
  have hij : (q.mem i).next = some j := by
    simpa using @WF_next_at_split q l₁ (j :: l₂) i h
  have hprev_i : (q.mem i).prev = l₁.getLast? := WF_prev_at_split h
  have hsplit2 : l₁ ++ i :: j :: l₂ = (l₁ ++ [i]) ++ j :: l₂ := by simp
  have hnext_j : (q.mem j).next = l₂.head? := WF_next_at_split (hsplit2 ▸ h)
  obtain ⟨hnd, hfr, hhead, htail, hnx, hpv, hhp, hln, hsz, hcur⟩ := h
  rw [chainP_iff_chain'] at hnx hpv
  have hmid1 := List.nodup_middle.mp hnd
  have hi_not : i ∉ l₁ ++ j :: l₂ := (List.nodup_cons.mp hmid1).1
  have hrest := (List.nodup_cons.mp hmid1).2
  have hmid2 := List.nodup_middle.mp hrest
  have hj_not : j ∉ l₁ ++ l₂ := (List.nodup_cons.mp hmid2).1
  have hnd'' : (l₁ ++ l₂).Nodup := (List.nodup_cons.mp hmid2).2
  have hi1 : i ∉ l₁ := fun hx => hi_not (List.mem_append_left _ hx)
  have hij_ne : i ≠ j :=
    fun he => hi_not (List.mem_append_right _ (he ▸ List.mem_cons_self j l₂))
  have hi2 : i ∉ l₂ :=
    fun hx => hi_not (List.mem_append_right _ (List.mem_cons_of_mem _ hx))
  have hj1 : j ∉ l₁ := fun hx => hj_not (List.mem_append_left _ hx)
  have hj2 : j ∉ l₂ := fun hx => hj_not (List.mem_append_right _ hx)
  have hdisj : l₁.Disjoint l₂ := List.disjoint_of_nodup_append hnd''
  have hpi : (q.mem i).prev ≠ some i := by
    rw [hprev_i]
    intro he
    exact hi1 (List.mem_of_getLast?_eq_some he)
  have hpj : (q.mem i).prev ≠ some j := by
    rw [hprev_i]
    intro he
    exact hj1 (List.mem_of_getLast?_eq_some he)
  have hni : (q.mem j).next ≠ some i := by
    rw [hnext_j]
    intro he
    exact hi2 (List.mem_of_mem_head? he)
  have hnj : (q.mem j).next ≠ some j := by
    rw [hnext_j]
    intro he
    exact hj2 (List.mem_of_mem_head? he)
  have hpn : ∀ p nx, (q.mem i).prev = some p → (q.mem j).next = some nx → p ≠ nx := by
    intro p nx hp2 hn2 he
    rw [hprev_i] at hp2
    rw [hnext_j] at hn2
    exact hdisj (List.mem_of_getLast?_eq_some hp2) (he ▸ List.mem_of_mem_head? hn2)
  obtain ⟨hfr', hsz', hcur', hhd', htl', hMi, hMj, hF1, hF2, hF3⟩ :=
    swap_nodes_spec q i j hij hij_ne hpi hpj hni hnj hpn
  have hperm : (l₁ ++ i :: j :: l₂).Perm (l₁ ++ j :: i :: l₂) :=
    List.Perm.append_left l₁ (List.Perm.swap j i l₂)
  have hnd_new : (l₁ ++ j :: i :: l₂).Nodup := hperm.nodup hnd
  have hkeep : ∀ x, x ≠ i → x ≠ j → l₁.getLast? ≠ some x → l₂.head? ≠ some x →
      (q.swap_nodes i j).mem x = q.mem x := by
    intro x hx1 hx2 hgx hhx
    refine hF1 x hx1 hx2 ?_ ?_
    · rw [hprev_i]; exact hgx
    · rw [hnext_j]; exact hhx
  have hnext_keep : ∀ x, x ≠ i → x ≠ j → l₁.getLast? ≠ some x →
      ((q.swap_nodes i j).mem x).next = (q.mem x).next := by
    intro x hx1 hx2 hgx
    by_cases hhx : l₂.head? = some x
    · rw [hF3 x (by rw [hnext_j]; exact hhx)]
    · rw [hkeep x hx1 hx2 hgx hhx]
  have hprev_keep : ∀ x, x ≠ i → x ≠ j → l₂.head? ≠ some x →
      ((q.swap_nodes i j).mem x).prev = (q.mem x).prev := by
    intro x hx1 hx2 hhx
    by_cases hgx : l₁.getLast? = some x
    · rw [hF2 x (by rw [hprev_i]; exact hgx)]
    · rw [hkeep x hx1 hx2 hgx hhx]
  have hgl1 : ∀ x ∈ l₁.dropLast, l₁.getLast? ≠ some x := by
    intro x hx he
    have hne : l₁ ≠ [] := by rintro rfl; simp at hx
    have hxg : x = l₁.getLast hne := by
      rw [List.getLast?_eq_getLast _ hne] at he
      exact (Option.some.inj he).symm
    exact getLast_not_mem_dropLast hnd''.of_append_left hne (hxg ▸ hx)
  have hgl2 : ∀ x ∈ l₂, l₁.getLast? ≠ some x :=
    fun x hx he => hdisj (List.mem_of_getLast?_eq_some he) hx
  have hh1 : ∀ x ∈ l₁, l₂.head? ≠ some x :=
    fun x hx he => hdisj hx (List.mem_of_mem_head? he)
  have hhd2 : ∀ x ∈ l₂.tail, l₂.head? ≠ some x := by
    intro x hx he
    have hcons := List.eq_cons_of_mem_head? he
    have hnd2 : l₂.Nodup := hnd''.of_append_right
    rw [hcons] at hnd2
    exact (List.nodup_cons.mp hnd2).1 hx
  obtain ⟨hnx1, hnx2', hnxcross⟩ := List.chain'_append.mp hnx
  obtain ⟨hpv1, hpv2', hpvcross⟩ := List.chain'_append.mp hpv
  have hnx2 : List.Chain' (fun a b => (q.mem a).next = some b) l₂ := hnx2'.tail.tail
  have hpv2 : List.Chain' (fun a b => (q.mem b).prev = some a) l₂ := hpv2'.tail.tail
  refine ⟨hnd_new, ?_, ?_, ?_, ?_, ?_, ?_, ?_, ?_, ?_⟩
  · intro x hx
    rw [hfr']
    exact hfr x (hperm.mem_iff.mpr hx)
  · rw [hhd']
    cases l₁ with
    | nil =>
      rw [hprev_i]
      rfl
    | cons a l₁' =>
      have hne : a :: l₁' ≠ [] := List.cons_ne_nil _ _
      rw [hprev_i, List.getLast?_eq_getLast _ hne]
      show q.head = _
      rw [hhead]
      rfl
  · rw [htl']
    cases l₂ with
    | nil =>
      rw [hnext_j]
      rw [show l₁ ++ j :: i :: ([] : List Nat) = (l₁ ++ [j]) ++ [i] by simp]
      rw [List.getLast?_concat]
      rfl
    | cons b l₂' =>
      rw [hnext_j]
      show q.tail = _
      rw [htail, getLast?_append_cons, getLast?_append_cons]
      simp [List.getLast?_cons_cons]
  · rw [chainP_iff_chain', List.chain'_append]
    refine ⟨?_, ?_, ?_⟩
    · apply chain_next_congr _ _ hnx1
      intro x hx
      have hxl : x ∈ l₁ := List.dropLast_subset _ hx
      exact hnext_keep x (fun he => hi1 (he ▸ hxl)) (fun he => hj1 (he ▸ hxl))
        (hgl1 x hx)
    · rw [List.chain'_cons]
      refine ⟨by rw [hMj], ?_⟩
      cases l₂ with
      | nil => exact List.chain'_singleton _
      | cons b l₂' =>
        rw [List.chain'_cons]
        refine ⟨?_, ?_⟩
        · rw [hMi]
          show (q.mem j).next = some b
          rw [hnext_j]
          rfl
        · apply chain_next_congr _ _ hnx2
          intro x hx
          have hxl : x ∈ b :: l₂' := List.dropLast_subset _ hx
          exact hnext_keep x (fun he => hi2 (he ▸ hxl)) (fun he => hj2 (he ▸ hxl))
            (hgl2 x hxl)
    · intro x hx y hy
      simp at hy
      rw [← hy]
      show ((q.swap_nodes i j).mem x).next = some j
      rw [hF2 x (by rw [hprev_i]; exact hx)]
  · rw [chainP_iff_chain', List.chain'_append]
    refine ⟨?_, ?_, ?_⟩
    · apply chain_prev_congr _ _ hpv1
      intro x hx
      have hxl : x ∈ l₁ := List.tail_subset _ hx
      exact hprev_keep x (fun he => hi1 (he ▸ hxl)) (fun he => hj1 (he ▸ hxl))
        (hh1 x hxl)
    · rw [List.chain'_cons]
      refine ⟨?_, ?_⟩
      · show ((q.swap_nodes i j).mem i).prev = some j
        rw [hMi]
      cases l₂ with
      | nil => exact List.chain'_singleton _
      | cons b l₂' =>
        rw [List.chain'_cons]
        refine ⟨?_, ?_⟩
        · show ((q.swap_nodes i j).mem b).prev = some i
          rw [hF3 b (by rw [hnext_j]; rfl)]
        · apply chain_prev_congr _ _ hpv2
          intro x hx
          have hxl : x ∈ b :: l₂' := List.tail_subset (b :: l₂') hx
          exact hprev_keep x (fun he => hi2 (he ▸ hxl)) (fun he => hj2 (he ▸ hxl))
            (hhd2 x hx)
    · intro x hx y hy
      simp at hy
      rw [← hy]
      show ((q.swap_nodes i j).mem j).prev = some x
      rw [hMj]
      show (q.mem i).prev = some x
      rw [hprev_i]
      exact hx
  · intro x hx
    cases l₁ with
    | nil =>
      simp at hx
      rw [hx, hMj]
      show (q.mem i).prev = none
      rw [hprev_i]
      rfl
    | cons a l₁' =>
      simp at hx
      rw [hx]
      have ham : a ∈ a :: l₁' := List.mem_cons_self a l₁'
      rw [hprev_keep a (fun he => hi1 (he ▸ ham)) (fun he => hj1 (he ▸ ham))
        (hh1 a ham)]
      simpa using hhp a (by simp)
  · intro x hx
    cases l₂ with
    | nil =>
      rw [show l₁ ++ j :: i :: ([] : List Nat) = (l₁ ++ [j]) ++ [i] by simp,
        List.getLast?_concat] at hx
      simp at hx
      rw [hx, hMi]
      show (q.mem j).next = none
      rw [hnext_j]
      rfl
    | cons b l₂' =>
      rw [show l₁ ++ j :: i :: b :: l₂' = (l₁ ++ [j, i]) ++ b :: l₂' by simp,
        List.getLast?_append] at hx
      cases hgl : (b :: l₂').getLast? with
      | none => simp at hgl
      | some g =>
        rw [hgl] at hx
        simp at hx
        have hg2 : g ∈ b :: l₂' := List.mem_of_getLast?_eq_some hgl
        rw [hx, hnext_keep g (fun he => hi2 (he ▸ hg2)) (fun he => hj2 (he ▸ hg2))
          (hgl2 g hg2)]
        have horig : (l₁ ++ i :: j :: b :: l₂').getLast? = some g := by
          rw [show l₁ ++ i :: j :: b :: l₂' = (l₁ ++ [i, j]) ++ b :: l₂' by simp,
            List.getLast?_append, hgl]
          rfl
        simpa using hln g (by rw [horig]; simp)
  · rw [hsz', hsz]
    exact hperm.length_eq
  · rw [hcur']
    intro c hcm
    exact hperm.mem_iff.mp (hcur c hcm)

/-! ## The Fisher-Yates loop permutes the collected node list -/

theorem upd_upd (m : Nat → Node) (i : Nat) (v w : Node) :
    upd (upd m i v) i w = upd m i w := by
  funext j
  by_cases hj : j = i
  · rw [hj, upd_same, upd_same]
  · rw [upd_ne _ _ _ hj, upd_ne _ _ _ hj, upd_ne _ _ _ hj]

theorem upd_self (m : Nat → Node) (i : Nat) : upd m i (m i) = m := by
  funext j
  by_cases hj : j = i
  · rw [hj, upd_same]
  · rw [upd_ne _ _ _ hj]

theorem set_self {α : Type} (l : List α) :
    ∀ (k : Nat) (a : α), l[k]? = some a → l.set k a = l := by
  induction l with
  | nil => intro k a h; simp at h
  | cons x xs ih =>
    intro k a h
    cases k with
    | zero =>
      simp at h
      rw [List.set_cons_zero, h]
    | succ k' =>
      simp at h
      rw [List.set_cons_succ, ih k' a h]

theorem cons_set_perm {α : Type} (xs : List α) :
    ∀ (k : Nat) (b x : α), xs[k]? = some b →
      (b :: xs.set k x).Perm (x :: xs) := by
  induction xs with
  | nil => intro k b x h; simp at h
  | cons y ys ih =>
    intro k b x h
    cases k with
    | zero =>
      simp at h
      rw [List.set_cons_zero, ← h]
      exact List.Perm.swap x y ys
    | succ k' =>
      simp at h
      rw [List.set_cons_succ]
      exact ((List.Perm.swap y b _).trans ((ih k' b x h).cons y)).trans
        (List.Perm.swap x y ys)

theorem swapIdx_perm {α : Type} (l : List α) :
    ∀ (i j : Nat), (swapIdx l i j).Perm l := by
  induction l with
  | nil =>
    intro i j
    unfold swapIdx
    simp
  | cons x xs ih =>
    intro i j
    cases i with
    | zero =>
      cases j with
      | zero =>
        unfold swapIdx
        simp
      | succ m =>
        unfold swapIdx
        simp only [List.getElem?_cons_zero, List.getElem?_cons_succ]
        cases hm : xs[m]? with
        | none => exact List.Perm.refl _
        | some b =>
          simp only [List.set_cons_zero, List.set_cons_succ]
          exact cons_set_perm xs m b x hm
    | succ k =>
      cases j with
      | zero =>
        unfold swapIdx
        simp only [List.getElem?_cons_zero, List.getElem?_cons_succ]
        cases hk : xs[k]? with
        | none => exact List.Perm.refl _
        | some a =>
          simp only [List.set_cons_succ, List.set_cons_zero]
          exact cons_set_perm xs k a x hk
      | succ m =>
        have heq : swapIdx (x :: xs) (k + 1) (m + 1) = x :: swapIdx xs k m := by
          unfold swapIdx
          simp only [List.getElem?_cons_succ]
          cases hk : xs[k]? with
          | none => rfl
          | some a =>
            cases hm : xs[m]? with
            | none => rfl
            | some b => simp [List.set_cons_succ]
        rw [heq]
        exact (ih k m).cons x

theorem fyLoop_perm : ∀ (k : Nat) (js l : List Nat), (fyLoop l k js).Perm l := by
  intro k
  induction k with
  | zero =>
    intro js l
    cases js with
    | nil => exact List.Perm.refl l
    | cons j js' => exact List.Perm.refl l
  | succ k' ih =>
    intro js l
    cases js with
    | nil => exact List.Perm.refl _
    | cons j js' =>
      show (fyLoop (swapIdx l (k' + 1) (j % (k' + 2))) k' js').Perm l
      exact (ih js' _).trans (swapIdx_perm l _ _)

/-! ## The relink loop of `shuffle` -/

theorem upd_self' (m : Nat → Node) (i : Nat) :
    upd m i { data := (m i).data, next := (m i).next, prev := (m i).prev } = m :=
  upd_self m i

/-- The two conditional pointer writes of one relink iteration, folded into
a single node replacement. -/
theorem relink_cons_eq (m : Nat → Node) (pr : Option Nat) (a : Nat) (rest : List Nat) :
    relink m pr (a :: rest) =
      relink
        (upd m a
          { data := (m a).data,
            next := match rest.head? with | some b => some b | none => (m a).next,
            prev := match pr with | some p => some p | none => (m a).prev })
        (some a) rest := by
  simp only [relink]
  rcases pr with _ | p <;> rcases hh : rest.head? with _ | b <;> simp only [hh]
  · rw [upd_self']
  · rw [upd_same, upd_upd]

/-- What the relink loop produces on a duplicate-free list: the listed
nodes are chained in list order, `data` fields are untouched, the head's
`prev` comes from the threaded predecessor and the last node's `next` is
left alone. -/
theorem relink_spec (m : Nat → Node) (pr : Option Nat) (L : List Nat)
    (hnd : L.Nodup) :
    (∀ x, x ∉ L → relink m pr L x = m x) ∧
    (∀ x, (relink m pr L x).data = (m x).data) ∧
    List.Chain' (fun a b => (relink m pr L a).next = some b) L ∧
    List.Chain' (fun a b => (relink m pr L b).prev = some a) L ∧
    (∀ a, L.head? = some a →
      (relink m pr L a).prev =
        (match pr with | some p => some p | none => (m a).prev)) ∧
    (∀ a, L.getLast? = some a → (relink m pr L a).next = (m a).next) := by
  induction L generalizing m pr with
  | nil =>
    exact ⟨fun x _ => rfl, fun x => rfl, List.chain'_nil, List.chain'_nil,
      fun a ha => by simp at ha, fun a ha => by simp at ha⟩
  | cons a rest ih =>
    have hcons := List.nodup_cons.mp hnd
    rw [relink_cons_eq]
    set v : Node :=
      { data := (m a).data,
        next := match rest.head? with | some b => some b | none => (m a).next,
        prev := match pr with | some p => some p | none => (m a).prev } with hv
    obtain ⟨ih1, ih2, ih3, ih4, ih5, ih6⟩ := ih (upd m a v) (some a) hcons.2
    have hRa : relink (upd m a v) (some a) rest a = v := by
      rw [ih1 a hcons.1, upd_same]
    refine ⟨?_, ?_, ?_, ?_, ?_, ?_⟩
    · intro x hx
      rw [List.mem_cons] at hx
      push_neg at hx
      rw [ih1 x hx.2, upd_ne _ _ _ hx.1]
    · intro x
      rw [ih2 x]
      by_cases hxa : x = a
      · rw [hxa, upd_same, hv]
      · rw [upd_ne _ _ _ hxa]
    · rw [List.chain'_cons']
      refine ⟨?_, ih3⟩
      intro y hy
      rw [Option.mem_def] at hy
      rw [hRa, hv]
      simp only [hy]
    · rw [List.chain'_cons']
      refine ⟨?_, ih4⟩
      intro y hy
      rw [Option.mem_def] at hy
      rw [ih5 y hy]
    · intro a0 ha0
      simp at ha0
      subst ha0
      rw [hRa, hv]
    · intro g hg
      cases rest with
      | nil =>
        simp at hg
        subst hg
        show ((upd m a v) a).next = (m a).next
        rw [upd_same, hv]
        rfl
      | cons b rest' =>
        rw [List.getLast?_cons_cons] at hg
        have hgmem : g ∈ b :: rest' := List.mem_of_getLast?_eq_some hg
        have hga : g ≠ a := fun he => hcons.1 (he ▸ hgmem)
        rw [ih6 g hg, upd_ne _ _ _ hga]

/-! ## `shuffle` preserves well-formedness -/

theorem shuffle_small {q : DoublyLinkedList} (js : List Nat) (h2 : q.size < 2) :
    q.shuffle js = q := by
  unfold DoublyLinkedList.shuffle
  rw [if_pos h2]

theorem shuffle_WF {q : DoublyLinkedList} {l : List Nat} (h : WF q l)
    (js : List Nat) (h2 : 2 ≤ q.size) :
    WF (q.shuffle js) (fyLoop l (l.length - 1) js) ∧
    (q.shuffle js).current = q.current ∧
    (q.shuffle js).fresh = q.fresh ∧
    (q.shuffle js).size = q.size ∧
    (∀ x, ((q.shuffle js).mem x).data = (q.mem x).data) := by
  have hcol : q.collect q.head q.size = l := WF_collect h
  obtain ⟨hnd, hfr, hhead, htail, hnx, hpv, hhp, hln, hsz, hcur⟩ := h
  have hperm : (fyLoop l (l.length - 1) js).Perm l := fyLoop_perm _ _ _
  have hshuf : q.shuffle js = shuffleRelink q (fyLoop l (l.length - 1) js) := by
    unfold DoublyLinkedList.shuffle
    rw [if_neg (by omega), hcol]
  obtain ⟨hh, rest, hLc⟩ :
      ∃ hh rest, fyLoop l (l.length - 1) js = hh :: rest := by
    cases hfy : fyLoop l (l.length - 1) js with
    | nil =>
      exfalso
      rw [hfy] at hperm
      have hl0 : l.length = 0 := by simpa using hperm.length_eq.symm
      rw [hsz] at h2
      omega
    | cons x xs => exact ⟨x, xs, rfl⟩
  rw [hshuf, hLc]
  rw [hLc] at hperm
  have hndL : (hh :: rest).Nodup := hperm.symm.nodup hnd
  have hh_not : hh ∉ rest := (List.nodup_cons.mp hndL).1
  have hrest_ne : rest ≠ [] := by
    intro he
    have hle := hperm.length_eq
    rw [he] at hle
    simp at hle
    rw [hsz, ← hle] at h2
    omega
  have hLne : hh :: rest ≠ [] := List.cons_ne_nil _ _
  set t := (hh :: rest).getLast (List.cons_ne_nil hh rest) with htdef
  set m0 := upd q.mem hh { q.mem hh with prev := none } with hm0def
  set m1 := upd m0 t { m0 t with next := none } with hm1def
  have hsrel : shuffleRelink q (hh :: rest) =
      { q with mem := relink m1 none (hh :: rest), head := some hh,
               tail := some t } := rfl
  rw [hsrel]
  have htrest : t ∈ rest := by
    rw [htdef, List.getLast_cons hrest_ne]
    exact List.getLast_mem hrest_ne
  have hth : t ≠ hh := fun he => hh_not (he ▸ htrest)
  have hm1_hh : m1 hh = { q.mem hh with prev := none } := by
    rw [hm1def, upd_ne _ _ _ (fun he => hth he.symm), hm0def, upd_same]
  have hm1_t : m1 t = { q.mem t with next := none } := by
    rw [hm1def, upd_same, hm0def, upd_ne _ _ _ hth]
  have hm1_other : ∀ x, x ≠ hh → x ≠ t → m1 x = q.mem x := by
    intro x h1 ht2
    rw [hm1def, upd_ne _ _ _ ht2, hm0def, upd_ne _ _ _ h1]
  have hm1_data : ∀ x, (m1 x).data = (q.mem x).data := by
    intro x
    by_cases h1 : x = hh
    · rw [h1, hm1_hh]
    · by_cases ht2 : x = t
      · rw [ht2, hm1_t]
      · rw [hm1_other x h1 ht2]
  obtain ⟨rs1, rs2, rs3, rs4, rs5, rs6⟩ := relink_spec m1 none (hh :: rest) hndL
  refine ⟨⟨hndL, ?_, rfl, ?_, ?_, ?_, ?_, ?_, ?_, ?_⟩, rfl, rfl, rfl, ?_⟩
  · intro a ha
    show a < q.fresh
    exact hfr a (hperm.mem_iff.mp ha)
  · show some t = _
    rw [List.getLast?_eq_getLast _ hLne]
  · rw [chainP_iff_chain']
    exact rs3
  · rw [chainP_iff_chain']
    exact rs4
  · intro x hx
    simp at hx
    rw [hx]
    show (relink m1 none (hh :: rest) hh).prev = none
    rw [rs5 hh rfl]
    show (m1 hh).prev = none
    rw [hm1_hh]
  · intro x hx
    rw [List.getLast?_eq_getLast _ hLne] at hx
    simp at hx
    rw [hx]
    show (relink m1 none (hh :: rest) t).next = none
    rw [rs6 t (by rw [htdef]; exact List.getLast?_eq_getLast _ hLne)]
    rw [hm1_t]
  · show q.size = (hh :: rest).length
    rw [hsz]
    exact hperm.length_eq.symm
  · intro c hc
    exact hperm.mem_iff.mpr (hcur c hc)
  · intro x
    show (relink m1 none (hh :: rest) x).data = (q.mem x).data
    rw [rs2 x, hm1_data x]

theorem clear_WF (q : DoublyLinkedList) : WF q.clear [] :=
  ⟨by simp, by simp, rfl, rfl, trivial, trivial, by simp, by simp, rfl,
   by simp [DoublyLinkedList.clear]⟩

theorem append_WF {q : DoublyLinkedList} {l : List Nat} (h : WF q l) (d : Song) :
    WF (q.append d) (l ++ [q.fresh]) := by
  obtain ⟨hnd, hfr, hhead, htail, hnx, hpv, hhp, hln, hsz, hcur⟩ := h
  rw [chainP_iff_chain'] at hnx hpv
  have hfresh_not : q.fresh ∉ l := fun hx => absurd (hfr _ hx) (by omega)
  cases l with
  | nil =>
    simp only [List.head?_nil] at hhead
    simp only [DoublyLinkedList.append, hhead]
    refine ⟨by simp, by simp, rfl, rfl, trivial, trivial, ?_, ?_, ?_, by simp⟩
    · intro a ha
      simp at ha
      subst ha
      simp [upd_same]
    · intro a ha
      simp at ha
      subst ha
      simp [upd_same]
    · simp at hsz
      simp [hsz]
  | cons a rest =>
    have hne : a :: rest ≠ [] := List.cons_ne_nil a rest
    set t := (a :: rest).getLast hne with ht
    have htail' : q.tail = some t := by
      rw [htail, List.getLast?_eq_getLast _ hne]
    have hhead' : q.head = some a := by simpa using hhead
    have htmem : t ∈ a :: rest := List.getLast_mem hne
    have htfresh : t ≠ q.fresh := fun hx => hfresh_not (hx ▸ htmem)
    simp only [DoublyLinkedList.append, hhead', htail']
    set vt : Node := { q.mem t with next := some q.fresh } with hvt
    set vf : Node := ⟨d, none, some t⟩ with hvf
    set m' : Nat → Node := upd (upd q.mem t vt) q.fresh vf with hm'
    have hmem_new : m' q.fresh = vf := upd_same _ _ _
    have hmem_t : m' t = vt := by
      rw [hm', upd_ne _ _ _ htfresh, upd_same]
    have hmem_old : ∀ x, x ≠ q.fresh → x ≠ t → m' x = q.mem x := by
      intro x hx1 hx2
      rw [hm', upd_ne _ _ _ hx1, upd_ne _ _ _ hx2]
    have hprev_keep : ∀ x, x ≠ q.fresh → (m' x).prev = (q.mem x).prev := by
      intro x hx1
      by_cases hx2 : x = t
      · rw [hx2, hmem_t, hvt]
      · rw [hmem_old x hx1 hx2]
    refine ⟨?_, ?_, ?_, ?_, ?_, ?_, ?_, ?_, ?_, ?_⟩
    · exact List.Nodup.append hnd (by simp)
        (fun x hx hx' => hfresh_not (by simp at hx'; exact hx' ▸ hx))
    · intro x hx
      show x < q.fresh + 1
      rcases List.mem_append.mp hx with hx | hx
      · exact Nat.lt_succ_of_lt (hfr x hx)
      · simp at hx
        omega
    · rfl
    · exact (List.getLast?_concat _).symm
    · rw [chainP_iff_chain', List.chain'_append]
      refine ⟨?_, List.chain'_singleton _, ?_⟩
      · apply chain_next_congr _ _ hnx
        intro x hx
        have hxl : x ∈ a :: rest := List.dropLast_subset _ hx
        have htd : t ∉ (a :: rest).dropLast := getLast_not_mem_dropLast hnd hne
        have hxt : x ≠ t := fun he => htd (he ▸ hx)
        show (m' x).next = (q.mem x).next
        rw [hmem_old x (fun he => hfresh_not (he ▸ hxl)) hxt]
      · intro x hx y hy
        simp at hy
        subst hy
        rw [List.getLast?_eq_getLast _ hne] at hx
        simp at hx
        subst hx
        show (m' t).next = some q.fresh
        rw [hmem_t]
    · rw [chainP_iff_chain', List.chain'_append]
      refine ⟨?_, List.chain'_singleton _, ?_⟩
      · apply chain_prev_congr _ _ hpv
        intro x hx
        show (m' x).prev = (q.mem x).prev
        exact hprev_keep x
          (fun he => hfresh_not (he ▸ List.tail_subset _ hx))
      · intro x hx y hy
        simp at hy
        subst hy
        rw [List.getLast?_eq_getLast _ hne] at hx
        simp at hx
        subst hx
        show (m' q.fresh).prev = some t
        rw [hmem_new]
    · intro y hy
      simp at hy
      rw [hy]
      show (m' a).prev = none
      rw [hprev_keep a (fun he => hfresh_not (he ▸ List.mem_cons_self a rest))]
      simpa using hhp a (by simp)
    · intro x hx
      rw [List.getLast?_concat] at hx
      simp at hx
      subst hx
      show (m' q.fresh).next = none
      rw [hmem_new]
    · show q.size + 1 = _
      simp [hsz]
    · intro c hc
      exact List.mem_append_left _ (hcur c hc)

/-! ## The clear-and-append rebuild loop -/

theorem append_tail {q : DoublyLinkedList} {l : List Nat} (h : WF q l) (s : Song) :
    (q.append s).tail = some q.fresh := by
  obtain ⟨-, -, hhead, htail, -⟩ := h.imp id id
  cases l with
  | nil =>
    simp only [List.head?_nil] at hhead
    simp only [DoublyLinkedList.append, hhead]
  | cons a rest =>
    have hne : a :: rest ≠ [] := List.cons_ne_nil a rest
    have htail' : q.tail = some ((a :: rest).getLast hne) := by
      rw [htail, List.getLast?_eq_getLast _ hne]
    have hhead' : q.head = some a := by simpa using hhead
    simp only [DoublyLinkedList.append, hhead', htail']

theorem append_mem_data {q : DoublyLinkedList} {l : List Nat} (h : WF q l) (s : Song) :
    ((q.append s).mem q.fresh).data = s ∧
    (∀ i ∈ l, ((q.append s).mem i).data = (q.mem i).data) := by
  obtain ⟨hnd, hfr, hhead, htail, -⟩ := h.imp id id
  cases l with
  | nil =>
    simp only [List.head?_nil] at hhead
    simp only [DoublyLinkedList.append, hhead]
    exact ⟨by rw [upd_same], by intro i hi; simp at hi⟩
  | cons a rest =>
    have hne : a :: rest ≠ [] := List.cons_ne_nil a rest
    have htail' : q.tail = some ((a :: rest).getLast hne) := by
      rw [htail, List.getLast?_eq_getLast _ hne]
    have hhead' : q.head = some a := by simpa using hhead
    simp only [DoublyLinkedList.append, hhead', htail']
    constructor
    · rw [upd_same]
    · intro i hi
      have hif : i ≠ q.fresh := fun he => absurd (hfr i hi) (by omega)
      rw [upd_ne _ _ _ hif]
      by_cases hit : i = (a :: rest).getLast hne
      · rw [hit, upd_same]
      · rw [upd_ne _ _ _ hit]

/-- Running the rebuild loop from a well-formed queue: the result is well
formed, its songs are the old songs followed by the view, and the
remembered node (when defined) belongs to the chain and holds the target
song. -/
theorem rebuild_fold_spec (target : Option Song) :
    ∀ (view : List Song) (q : DoublyLinkedList) (st : Option Nat) (l : List Nat),
      WF q l →
      (∀ i, st = some i → i ∈ l ∧ ∃ s, target = some s ∧ (q.mem i).data = s) →
      ∃ q' st' l',
        view.foldl (rebuildStep target) (q, st) = (q', st') ∧
        WF q' l' ∧
        (l'.map fun i => (q'.mem i).data) = (l.map fun i => (q.mem i).data) ++ view ∧
        (∀ i, st' = some i → i ∈ l' ∧ ∃ s, target = some s ∧ (q'.mem i).data = s) ∧
        (∀ s, target = some s → s ∈ view → ∃ j, st' = some j) ∧
        (∀ i, st = some i → ∃ j, st' = some j) := by
  intro view
  induction view with
  | nil =>
    intro q st l h hst
    exact ⟨q, st, l, rfl, h, by simp, hst, by intro s _ hsv; simp at hsv,
      fun i hi => ⟨i, hi⟩⟩
  | cons s view' ih =>
    intro q st l h hst
    have hWF2 : WF (q.append s) (l ++ [q.fresh]) := append_WF h s
    have hdata := append_mem_data h s
    have hstep : (s :: view').foldl (rebuildStep target) (q, st) =
        view'.foldl (rebuildStep target)
          (q.append s, if target = some s then (q.append s).tail else st) := rfl
    set st2 : Option Nat := if target = some s then (q.append s).tail else st
      with hst2
    have hst2inv : ∀ i, st2 = some i →
        i ∈ l ++ [q.fresh] ∧ ∃ s0, target = some s0 ∧ ((q.append s).mem i).data = s0 := by
      intro i hi
      rw [hst2] at hi
      by_cases hts : target = some s
      · rw [if_pos hts, append_tail h s] at hi
        injection hi with hi
        subst hi
        exact ⟨List.mem_append_right _ (by simp), s, hts, hdata.1⟩
      · rw [if_neg hts] at hi
        obtain ⟨hmem, s0, hs0, hdat⟩ := hst i hi
        exact ⟨List.mem_append_left _ hmem, s0, hs0,
          by rw [hdata.2 i hmem]; exact hdat⟩
    obtain ⟨q', st', l', heq, hWF', hmap, hinv', hdef', hsome'⟩ :=
      ih (q.append s) st2 (l ++ [q.fresh]) hWF2 hst2inv
    refine ⟨q', st', l', by rw [hstep, heq], hWF', ?_, hinv', ?_, ?_⟩
    · rw [hmap, List.map_append]
      have : (l.map fun i => ((q.append s).mem i).data) =
          l.map fun i => (q.mem i).data :=
        List.map_congr_left fun i hi => hdata.2 i hi
      rw [this]
      simp [hdata.1]
    · intro s0 hs0 hsv
      rcases List.mem_cons.mp hsv with hsv | hsv
      · have hs1 : target = some s := by rw [← hsv]; exact hs0
        have : st2 = some q.fresh := by
          rw [hst2, if_pos hs1, append_tail h s]
        exact hsome' q.fresh this
      · exact hdef' s0 hs0 hsv
    · intro i hi
      by_cases hts : target = some s
      · refine hsome' q.fresh ?_
        rw [hst2, if_pos hts, append_tail h s]
      · refine hsome' i ?_
        rw [hst2, if_neg hts]
        exact hi

theorem emptyDLL_WF : WF emptyDLL [] := by decide

theorem pairfold_fst (target : Option Song) :
    ∀ (view : List Song) (acc : DoublyLinkedList × Option Nat),
      (view.foldl (rebuildStep target) acc).1 =
        view.foldl DoublyLinkedList.append acc.1 := by
  intro view
  induction view with
  | nil => intro acc; rfl
  | cons s view' ih =>
    intro acc
    rw [List.foldl_cons, List.foldl_cons, ih]
    rfl

/-! ## Claim theorems: the doubly linked list -/

/-- A concrete three-song queue used by the witnesses. -/
def sampleQueue : DoublyLinkedList :=
  [10, 20, 30].foldl DoublyLinkedList.append emptyDLL

/-- C7: the `Stack` is strictly LIFO — pushing `A` then `B` and popping
twice yields `B` then `A`; popping an empty stack returns `none` and leaves
the stack unchanged; `is_empty` holds exactly when no pushed item remains
unpopped. -/
theorem C7_stack_lifo :
    (∀ (s : Stack Nat) (A B : Nat),
      ((s.push A).push B).pop = (some B, s.push A) ∧
      (s.push A).pop = (some A, s)) ∧
    (∀ s : Stack Nat, s.is_empty = true → s.pop = (none, s)) ∧
    (∀ s : Stack Nat, s.is_empty = true ↔ s.items = []) := by
  refine ⟨?_, ?_, ?_⟩
  · intro s A B
    constructor
    · simp [Stack.pop, Stack.push, Stack.is_empty, List.getLast?_concat,
        List.dropLast_concat]
    · simp [Stack.pop, Stack.push, Stack.is_empty, List.getLast?_concat,
        List.dropLast_concat]
  · intro s h
    simp [Stack.pop, h]
  · intro s
    simp [Stack.is_empty, List.length_eq_zero]

theorem C7_stack_lifo_witness :
    (Stack.mk ([] : List Nat)).is_empty = true ∧
    (Stack.mk ([] : List Nat)).pop = (none, Stack.mk []) :=
  ⟨by decide, C7_stack_lifo.2.1 ⟨[]⟩ (by decide)⟩

/-- Combined removal facts: the excised chain stays well formed and the
`current` reassignment rule (used by the removal claims). -/
theorem remove_node_effects {q : DoublyLinkedList} {l₁ l₂ : List Nat} {i : Nat}
    (h : WF q (l₁ ++ i :: l₂)) :
    WF (q.remove_node i) (l₁ ++ l₂) ∧
    i ∉ l₁ ++ l₂ ∧
    (q.current = some i →
      (q.remove_node i).current =
        (match (q.mem i).next with
         | some nxt => some nxt
         | none => (q.mem i).prev) ∧
      ((q.remove_node i).current = none ↔ (q.remove_node i).size = 0) ∧
      (q.remove_node i).current ≠ some i) := by
  have hnext_i : (q.mem i).next = l₂.head? := WF_next_at_split h
  have hprev_i : (q.mem i).prev = l₁.getLast? := WF_prev_at_split h
  have hWF' := remove_node_WF h
  obtain ⟨hnd, hfr, hhead, htail, hnx, hpv, hhp, hln, hsz, hcur⟩ := h
  have hmid : (i :: (l₁ ++ l₂)).Nodup := List.nodup_middle.mp hnd
  have hi_not : i ∉ l₁ ++ l₂ := (List.nodup_cons.mp hmid).1
  have hnd' : (l₁ ++ l₂).Nodup := (List.nodup_cons.mp hmid).2
  have hi1 : i ∉ l₁ := fun hx => hi_not (List.mem_append_left _ hx)
  have hi2 : i ∉ l₂ := fun hx => hi_not (List.mem_append_right _ hx)
  have hdisj : l₁.Disjoint l₂ := List.disjoint_of_nodup_append hnd'
  have hpi : (q.mem i).prev ≠ some i := by
    rw [hprev_i]
    intro he
    exact hi1 (List.mem_of_getLast?_eq_some he)
  have hni : (q.mem i).next ≠ some i := by
    rw [hnext_i]
    intro he
    exact hi2 (List.mem_of_mem_head? he)
  have hpn : ∀ p nx, (q.mem i).prev = some p → (q.mem i).next = some nx → p ≠ nx := by
    intro p nx hp2 hn2 he
    rw [hprev_i] at hp2
    rw [hnext_i] at hn2
    exact hdisj (List.mem_of_getLast?_eq_some hp2) (he ▸ List.mem_of_mem_head? hn2)
  obtain ⟨-, hsz', -, -, hcur', -, -, -⟩ := remove_node_spec q i hpi hni hpn
  refine ⟨hWF', hi_not, ?_⟩
  intro hc
  rw [hcur', if_pos hc]
  have hsz2 : (q.remove_node i).size = l₁.length + l₂.length := by
    rw [hsz', hsz]
    simp
  refine ⟨rfl, ?_, ?_⟩
  · cases hn2 : (q.mem i).next with
    | some nxt =>
      simp only []
      constructor
      · intro he
        exact absurd he (by simp)
      · intro he
        rw [hsz2] at he
        have h2m : nxt ∈ l₂ :=
          List.mem_of_mem_head? (by rw [← hnext_i]; exact hn2)
        have : l₂.length = 0 := by omega
        rw [List.length_eq_zero.mp this] at h2m
        simp at h2m
    | none =>
      simp only []
      rw [hprev_i]
      cases hl1 : l₁.getLast? with
      | none =>
        have h1e : l₁ = [] := by simpa using hl1
        have h2e : l₂ = [] := by
          have := hnext_i
          rw [hn2] at this
          cases l₂ with
          | nil => rfl
          | cons b l₂' => simp at this
        rw [hsz2, h1e, h2e]
        simp
      | some g =>
        have hgm : g ∈ l₁ := List.mem_of_getLast?_eq_some hl1
        constructor
        · intro he
          exact absurd he (by simp)
        · intro he
          rw [hsz2] at he
          have : l₁.length = 0 := by omega
          rw [List.length_eq_zero.mp this] at hgm
          simp at hgm
  · cases hn2 : (q.mem i).next with
    | some nxt =>
      simp only []
      intro he
      injection he with he
      have h2m : nxt ∈ l₂ :=
        List.mem_of_mem_head? (by rw [← hnext_i]; exact hn2)
      exact hi2 (he ▸ h2m)
    | none =>
      simp only []
      rw [hprev_i]
      cases hl1 : l₁.getLast? with
      | none => simp
      | some g =>
        intro he
        injection he with he
        exact hi1 (he ▸ List.mem_of_getLast?_eq_some hl1)

/-- C1: on a well-formed queue, `remove_node` excises the node: the
remaining chain is the original chain without that node and is well
formed; if the removed node was `current`, `current` is reassigned to the
removed node's former `next`, or else its former `prev`, and is `none`
exactly when the queue becomes empty — never the removed node itself. -/
theorem C1_remove_node_current {q : DoublyLinkedList} {l₁ l₂ : List Nat} {i : Nat}
    (h : WF q (l₁ ++ i :: l₂)) :
    WF (q.remove_node i) (l₁ ++ l₂) ∧
    i ∉ l₁ ++ l₂ ∧
    (q.current = some i →
      (q.remove_node i).current =
        (match (q.mem i).next with
         | some nxt => some nxt
         | none => (q.mem i).prev) ∧
      ((q.remove_node i).current = none ↔ (q.remove_node i).size = 0) ∧
      (q.remove_node i).current ≠ some i) :=
  remove_node_effects h

theorem C1_remove_node_current_witness :
    WF sampleQueue ([] ++ 0 :: [1, 2]) ∧
    (WF (sampleQueue.remove_node 0) ([] ++ [1, 2]) ∧
      (0 : Nat) ∉ ([] ++ [1, 2] : List Nat) ∧
      (sampleQueue.current = some 0 →
        (sampleQueue.remove_node 0).current =
          (match (sampleQueue.mem 0).next with
           | some nxt => some nxt
           | none => (sampleQueue.mem 0).prev) ∧
        ((sampleQueue.remove_node 0).current = none ↔
          (sampleQueue.remove_node 0).size = 0) ∧
        (sampleQueue.remove_node 0).current ≠ some 0)) :=
  ⟨by decide, C1_remove_node_current (by decide)⟩

/-- C3: `shuffle` permutes the queue's nodes — the multiset of tracks is
unchanged, size is unchanged, the resulting chain is a valid doubly linked
list, `current` still points at the same track, and for `size < 2` the
operation is a no-op. -/
theorem C3_shuffle_permutation {q : DoublyLinkedList} {l : List Nat}
    (h : WF q l) (js : List Nat) :
    Multiset.ofList (q.shuffle js).track_list = Multiset.ofList q.track_list ∧
    (q.shuffle js).size = q.size ∧
    (∃ l', WF (q.shuffle js) l') ∧
    (q.shuffle js).current = q.current ∧
    (∀ c, q.current = some c → ((q.shuffle js).mem c).data = (q.mem c).data) ∧
    (q.size < 2 → q.shuffle js = q) := by
  by_cases h2 : q.size < 2
  · rw [shuffle_small js h2]
    exact ⟨rfl, rfl, ⟨l, h⟩, rfl, fun c _ => rfl, fun _ => rfl⟩
  · push_neg at h2
    obtain ⟨hWF', hcur, hfr, hsz, hdata⟩ := shuffle_WF h js h2
    refine ⟨?_, hsz, ⟨_, hWF'⟩, hcur, fun c _ => hdata c,
      fun hlt => absurd hlt (by omega)⟩
    rw [WF_track_list hWF', WF_track_list h]
    have hfun : (fun i => ((q.shuffle js).mem i).data) =
        fun i => (q.mem i).data := funext hdata
    rw [hfun, Multiset.coe_eq_coe]
    exact (fyLoop_perm _ _ _).map _

theorem C3_shuffle_permutation_witness :
    WF sampleQueue [0, 1, 2] ∧
    Multiset.ofList (sampleQueue.shuffle [1, 5]).track_list =
      Multiset.ofList sampleQueue.track_list :=
  ⟨by decide, (C3_shuffle_permutation (l := [0, 1, 2]) (by decide) [1, 5]).1⟩

/-- C4: every mutating queue operation — `append`, `clear`, `remove_node`
on a node of the chain, `swap_nodes` on adjacent nodes, `shuffle` —
preserves the structural invariants captured by `WF` (valid doubly linked
chain with absent outer links, `size` = number of reachable nodes,
`current` absent or reachable). -/
theorem C4_invariants_preserved {q : DoublyLinkedList} {l : List Nat}
    (h : WF q l) :
    (∀ d, WF (q.append d) (l ++ [q.fresh])) ∧
    WF q.clear [] ∧
    (∀ i l₁ l₂, l = l₁ ++ i :: l₂ → WF (q.remove_node i) (l₁ ++ l₂)) ∧
    (∀ i j l₁ l₂, l = l₁ ++ i :: j :: l₂ →
      WF (q.swap_nodes i j) (l₁ ++ j :: i :: l₂)) ∧
    (∀ js, ∃ l', WF (q.shuffle js) l') := by
  refine ⟨fun d => append_WF h d, clear_WF q, ?_, ?_, ?_⟩
  · intro i l₁ l₂ he
    exact remove_node_WF (he ▸ h)
  · intro i j l₁ l₂ he
    exact swap_nodes_WF (he ▸ h)
  · intro js
    by_cases h2 : q.size < 2
    · rw [shuffle_small js h2]
      exact ⟨l, h⟩
    · push_neg at h2
      exact ⟨_, (shuffle_WF h js h2).1⟩

theorem C4_invariants_preserved_witness :
    WF sampleQueue [0, 1, 2] ∧
    WF (sampleQueue.append 7) ([0, 1, 2] ++ [sampleQueue.fresh]) ∧
    WF (sampleQueue.swap_nodes 0 1) ([] ++ 1 :: 0 :: [2]) :=
  ⟨by decide, (C4_invariants_preserved (by decide)).1 7,
    (C4_invariants_preserved (by decide)).2.2.2.1 0 1 [] [2] rfl⟩

/-- C6: appending a finite sequence of tracks to an initially empty queue
yields a queue whose size is the number of appends and whose head-to-tail
traversal visits the tracks in append order; the first `append` into an
empty queue makes the new node head, tail and current. -/
theorem C6_append_order :
    (∀ songs : List Song,
      (songs.foldl DoublyLinkedList.append emptyDLL).size = songs.length ∧
      (songs.foldl DoublyLinkedList.append emptyDLL).track_list = songs ∧
      ∃ l, WF (songs.foldl DoublyLinkedList.append emptyDLL) l) ∧
    (∀ q : DoublyLinkedList, WF q [] → ∀ s,
      (q.append s).head = some q.fresh ∧
      (q.append s).tail = some q.fresh ∧
      (q.append s).current = some q.fresh) := by
  constructor
  · intro songs
    obtain ⟨q', st', l', heq, hWF', hmap, -, -, -⟩ :=
      rebuild_fold_spec none songs emptyDLL none [] emptyDLL_WF
        (by intro i hi; simp at hi)
    have hfst : songs.foldl DoublyLinkedList.append emptyDLL = q' := by
      rw [← pairfold_fst none songs (emptyDLL, none), heq]
    simp only [List.map_nil, List.nil_append] at hmap
    obtain ⟨-, -, -, -, -, -, -, -, hsz, -⟩ := hWF'.imp id id
    refine ⟨?_, ?_, ?_⟩
    · rw [hfst, hsz, ← hmap, List.length_map]
    · rw [hfst, WF_track_list hWF', hmap]
    · rw [hfst]
      exact ⟨l', hWF'⟩
  · intro q hq s
    obtain ⟨-, -, hhead, -⟩ := hq.imp id id
    simp only [List.head?_nil] at hhead
    simp only [DoublyLinkedList.append, hhead]
    exact ⟨trivial, trivial, trivial⟩

theorem C6_append_order_witness :
    WF emptyDLL [] ∧
    ((emptyDLL.append 5).head = some emptyDLL.fresh ∧
      (emptyDLL.append 5).tail = some emptyDLL.fresh ∧
      (emptyDLL.append 5).current = some emptyDLL.fresh) :=
  ⟨by decide, C6_append_order.2 emptyDLL (by decide) 5⟩

/-! ## Controller-level helper lemmas -/

theorem play_current_history (a : HarmoniaApp) :
    (a.play_current).history = a.history := by
  unfold HarmoniaApp.play_current
  cases a.queue.current <;> rfl

theorem play_current_queue (a : HarmoniaApp) :
    (a.play_current).queue = a.queue := by
  unfold HarmoniaApp.play_current
  cases a.queue.current <;> rfl

/-- `current := c` keeps well-formedness as long as `c` stays in the
chain. -/
theorem set_current_WF {q : DoublyLinkedList} {l : List Nat} (h : WF q l)
    {c : Option Nat} (hc : ∀ i, c = some i → i ∈ l) :
    WF { q with current := c } l := by
  obtain ⟨h1, h2, h3, h4, h5, h6, h7, h8, h9, h10⟩ := h
  refine ⟨h1, h2, h3, h4, h5, h6, h7, h8, h9, ?_⟩
  intro i hi
  exact hc i (opt_mem_toList hi)

theorem clear_of_empty {q : DoublyLinkedList} (h : WF q []) : q.clear = q := by
  obtain ⟨-, -, hhead, htail, -, -, -, -, hsz, hcur⟩ := h.imp id id
  cases q with
  | mk m f hd tl cur sz =>
    have h1 : hd = none := by simpa using hhead
    have h2 : tl = none := by simpa using htail
    have h4 : sz = 0 := by simpa using hsz
    have h3 : cur = none := by
      cases cur with
      | none => rfl
      | some c => exact absurd (hcur c (by simp)) (by simp)
    subst h1
    subst h2
    subst h3
    subst h4
    rfl

/-- On a well-formed queue whose `current` is the tail, the current node
has no forward link. -/
theorem tail_next_none {q : DoublyLinkedList} {l : List Nat} {c : Nat}
    (h : WF q l) (ht : q.tail = some c) : (q.mem c).next = none := by
  obtain ⟨-, -, -, htail, -, -, -, hln, -, -⟩ := h.imp id id
  refine hln c ?_
  rw [← htail, ht]
  simp

/-- On a well-formed queue with a current node, the head exists. -/
theorem head_isSome_of_current {q : DoublyLinkedList} {l : List Nat} {c : Nat}
    (h : WF q l) (hc : q.current = some c) : ∃ hd, q.head = some hd := by
  obtain ⟨-, -, hhead, -, -, -, -, -, -, hcur⟩ := h.imp id id
  have hcm : c ∈ l := hcur c (by rw [hc]; simp)
  cases l with
  | nil => simp at hcm
  | cons x xs => exact ⟨x, by simpa using hhead⟩

/-! ## Claim theorems: the playback controller -/

/-- C10: with no current node, `play_next` leaves the whole engine state
unchanged; with an empty history and no current node (or a current node
without a backward link), `play_prev` leaves the whole engine state
unchanged. -/
theorem C10_nav_frame :
    (∀ a : HarmoniaApp, a.queue.current = none → a.play_next = a) ∧
    (∀ a : HarmoniaApp, a.history.is_empty = true →
      (a.queue.current = none ∨
        (∀ c, a.queue.current = some c → (a.queue.mem c).prev = none)) →
      a.play_prev = a) := by
  constructor
  · intro a h
    simp only [HarmoniaApp.play_next, h]
  · intro a h hc
    rcases hc2 : a.queue.current with _ | c
    · simp [HarmoniaApp.play_prev, h, hc2]
    · rcases hc with hc | hc
      · rw [hc] at hc2
        cases hc2
      · have hp := hc c hc2
        simp [HarmoniaApp.play_prev, h, hc2, hp]

/-- A stopped engine state with everything empty (used by witnesses). -/
def sampleAppEmpty : HarmoniaApp :=
  { queue := emptyDLL, history := ⟨[]⟩, current_view_songs := [],
    selection := none, is_looping := false, is_shuffled := false,
    is_playing := false, mixer := .idle, mixer_ever_played := false,
    now_playing := none }

theorem C10_nav_frame_witness :
    sampleAppEmpty.queue.current = none ∧
    sampleAppEmpty.play_next = sampleAppEmpty ∧
    sampleAppEmpty.history.is_empty = true ∧
    sampleAppEmpty.play_prev = sampleAppEmpty :=
  ⟨rfl, C10_nav_frame.1 sampleAppEmpty rfl,
    rfl, C10_nav_frame.2 sampleAppEmpty rfl (Or.inl rfl)⟩

/-- A playing single-song state: the current node is the tail, loop is
disabled, history is empty. -/
def sampleAppTail : HarmoniaApp :=
  { queue := [10].foldl DoublyLinkedList.append emptyDLL, history := ⟨[]⟩,
    current_view_songs := [10], selection := none, is_looping := false,
    is_shuffled := false, is_playing := true, mixer := .playing,
    mixer_ever_played := true, now_playing := some 10 }

/-- C2 counterexample: at the tail with loop disabled, `play_next` does
push the outgoing current node onto the history stack (the push happens
before the advance check), so "pushes nothing to the HistoryStack" fails
on this concrete state. -/
theorem C2_counterexample :
    sampleAppTail.queue.tail = sampleAppTail.queue.current ∧
    sampleAppTail.is_looping = false ∧
    sampleAppTail.history.items = [] ∧
    (sampleAppTail.play_next).history.items = [0] ∧
    (sampleAppTail.play_next).history.items ≠ sampleAppTail.history.items := by
  decide

/-- C2 (amended): at the tail, `play_next` first pushes the old current
onto the history (this happens whenever a current node exists, before the
advance check).  With loop disabled it then stops and leaves `current`
unchanged; with loop enabled it wraps `current` to the head and plays it.
`play_prev` never pushes: it leaves the history unchanged or pops its
top. -/
theorem C2_next_at_tail {a : HarmoniaApp} {l : List Nat} {c : Nat}
    (hWF : WF a.queue l) (hc : a.queue.current = some c)
    (ht : a.queue.tail = some c) :
    ((a.is_looping = false →
      (a.play_next).is_playing = false ∧
      (a.play_next).queue.current = some c ∧
      (a.play_next).history = a.history.push c) ∧
     (a.is_looping = true →
      (a.play_next).history = a.history.push c ∧
      (a.play_next).queue.current = a.queue.head ∧
      (a.play_next).is_playing = true ∧
      (∀ hd, a.queue.head = some hd →
        (a.play_next).now_playing = some ((a.queue.mem hd).data)))) ∧
    (∀ b : HarmoniaApp,
      (b.play_prev).history.items = b.history.items ∨
      (b.play_prev).history.items = b.history.items.dropLast) := by
  have hnext : (a.queue.mem c).next = none := tail_next_none hWF ht
  refine ⟨⟨?_, ?_⟩, ?_⟩
  · intro hloop
    simp only [HarmoniaApp.play_next, hc, hnext, hloop]
    exact ⟨rfl, hc, rfl⟩
  · intro hloop
    obtain ⟨hd, hhd⟩ := head_isSome_of_current hWF hc
    simp only [HarmoniaApp.play_next, hc, hnext, hloop, if_pos]
    simp only [HarmoniaApp.play_current, hhd]
    refine ⟨trivial, trivial, trivial, ?_⟩
    intro hd2 hhd2
    injection hhd2 with hhd2
    rw [hhd2]
  · intro b
    unfold HarmoniaApp.play_prev
    by_cases hb : b.history.is_empty = false
    · rw [if_pos hb]
      right
      rw [play_current_history]
      show (b.history.pop).2.items = _
      unfold Stack.pop
      rw [if_neg (by rw [hb]; exact Bool.false_ne_true)]
    · rw [if_neg hb]
      rcases hc2 : b.queue.current with _ | c2
      · left
        simp only [hc2]
      · rcases hp2 : (b.queue.mem c2).prev with _ | pr
        · left
          simp only [hc2, hp2]
        · left
          simp only [hc2, hp2]
          rw [play_current_history]

theorem C2_next_at_tail_witness :
    WF sampleAppTail.queue [0] ∧
    sampleAppTail.queue.current = some 0 ∧
    sampleAppTail.queue.tail = some 0 ∧
    sampleAppTail.is_looping = false ∧
    ((sampleAppTail.play_next).is_playing = false ∧
      (sampleAppTail.play_next).queue.current = some 0 ∧
      (sampleAppTail.play_next).history = sampleAppTail.history.push 0) :=
  ⟨by decide, by decide, by decide, by decide,
    (C2_next_at_tail (l := [0]) (by decide) (by decide) (by decide)).1.1 (by decide)⟩

/-- A stopped state with an empty queue but a non-empty current view. -/
def sampleAppView : HarmoniaApp :=
  { queue := emptyDLL, history := ⟨[]⟩, current_view_songs := [7],
    selection := none, is_looping := false, is_shuffled := false,
    is_playing := false, mixer := .idle, mixer_ever_played := false,
    now_playing := none }

/-- C8 counterexample: with an empty queue but a non-empty current view,
`toggle_play` starts playback of the first view song — the engine does not
remain Stopped and `current` does not stay `none`. -/
theorem C8_counterexample :
    sampleAppView.queue.size = 0 ∧
    sampleAppView.queue.current = none ∧
    sampleAppView.is_playing = false ∧
    (sampleAppView.toggle_play []).is_playing = true ∧
    (sampleAppView.toggle_play []).queue.current ≠ none := by
  decide

/-- C8 (amended): `toggle_play` never crashes (it is a total function); on
an engine state whose queue is empty, whose current view is empty, and
which is not playing, it leaves the whole state unchanged — in particular
it remains Stopped and `current` stays `none`. -/
theorem C8_toggle_play_empty {a : HarmoniaApp} (hq : WF a.queue [])
    (hv : a.current_view_songs = []) (hp : a.is_playing = false)
    (js : List Nat) :
    a.toggle_play js = a := by
  obtain ⟨-, -, hhead, -, -, -, -, -, hsz, hcur0⟩ := hq.imp id id
  have hcur : a.queue.current = none := by
    rcases hc : a.queue.current with _ | c
    · rfl
    · exact absurd (hcur0 c (by rw [hc]; simp)) (by simp)
  have hclear : a.queue.clear = a.queue := clear_of_empty hq
  have hsz0 : a.queue.size = 0 := by simpa using hsz
  have hps : ∀ s, a.play_specific_song s js = a := by
    intro s
    simp only [HarmoniaApp.play_specific_song]
    have h1 : ({ (rebuildFromView a.queue a.current_view_songs (some s)).1 with
        current := (rebuildFromView a.queue a.current_view_songs (some s)).2 } :
          DoublyLinkedList) = a.queue := by
      rw [hv]
      show ({ a.queue.clear with current := none } : DoublyLinkedList) = a.queue
      exact hclear
    rw [h1]
    by_cases hsh : a.is_shuffled = true
    · rw [if_pos hsh, shuffle_small js (by rw [hsz0]; omega)]
      show a.play_current = a
      unfold HarmoniaApp.play_current
      rw [hcur]
    · rw [if_neg hsh]
      show a.play_current = a
      unfold HarmoniaApp.play_current
      rw [hcur]
  rcases hsel : a.selection with _ | s
  · simp only [HarmoniaApp.toggle_play, hsel]
    unfold HarmoniaApp.toggle_play_noselect
    rw [if_neg (by rw [hp]; exact Bool.false_ne_true)]
    rw [hcur]
    rw [show (Option.isSome (none : Option Nat) && a.mixer_ever_played) = false
      by simp]
    rw [if_neg Bool.false_ne_true]
    rw [hv]
  · have htrig : a.sel_starts_new s = true := by
      unfold HarmoniaApp.sel_starts_new
      rw [hcur]
    simp only [HarmoniaApp.toggle_play, hsel]
    rw [if_pos htrig]
    exact hps s

theorem C8_toggle_play_empty_witness :
    WF sampleAppEmpty.queue [] ∧
    sampleAppEmpty.current_view_songs = [] ∧
    sampleAppEmpty.is_playing = false ∧
    sampleAppEmpty.toggle_play [] = sampleAppEmpty :=
  ⟨by decide, rfl, rfl, C8_toggle_play_empty (by decide) rfl rfl []⟩

/-- A paused two-song state: playback is paused on the current (first)
node. -/
def sampleAppPaused : HarmoniaApp :=
  { queue := [10, 20].foldl DoublyLinkedList.append emptyDLL, history := ⟨[]⟩,
    current_view_songs := [10, 20], selection := none, is_looping := false,
    is_shuffled := false, is_playing := false, mixer := .paused,
    mixer_ever_played := true, now_playing := some 10 }

/-- C9 counterexample: when the controller is Paused (not Playing),
removing the current node from the queue neither stops the backend nor
clears the now-playing display — the claim's "Playing/Paused" precondition
fails in the Paused half. -/
theorem C9_counterexample :
    sampleAppPaused.queue.current = some 0 ∧
    sampleAppPaused.queue.get_node_at_index 0 = some 0 ∧
    sampleAppPaused.is_playing = false ∧
    sampleAppPaused.mixer = MixerState.paused ∧
    (sampleAppPaused.remove_from_queue_ui 0).now_playing = some 10 ∧
    (sampleAppPaused.remove_from_queue_ui 0).mixer = MixerState.paused := by
  decide

/-- C9 (amended): when the node being removed is the current node and the
controller is Playing, `remove_from_queue_ui` stops the audio backend,
clears the now-playing display, reassigns the queue's `current` by the
`remove_node` rule, and leaves the controller Stopped. -/
theorem C9_remove_current_playing {a : HarmoniaApp} {l : List Nat} {k i : Nat}
    (hWF : WF a.queue l)
    (hget : a.queue.get_node_at_index k = some i)
    (hc : a.queue.current = some i)
    (hp : a.is_playing = true) :
    (a.remove_from_queue_ui k).is_playing = false ∧
    (a.remove_from_queue_ui k).mixer = MixerState.idle ∧
    (a.remove_from_queue_ui k).now_playing = none ∧
    (a.remove_from_queue_ui k).queue.current =
      (match (a.queue.mem i).next with
       | some nxt => some nxt
       | none => (a.queue.mem i).prev) ∧
    (∃ l', WF (a.remove_from_queue_ui k).queue l') ∧
    (a.remove_from_queue_ui k).queue.current ≠ some i := by
  have hsz : a.queue.size = l.length := by
    obtain ⟨-, -, -, -, -, -, -, -, hsz, -⟩ := hWF.imp id id
    exact hsz
  have him : i ∈ l := by
    by_cases hk : k < l.length
    · have hidx := WF_get_node_at_index hWF hk
      rw [hidx] at hget
      exact List.get?_mem hget
    · exfalso
      unfold DoublyLinkedList.get_node_at_index at hget
      rw [if_pos (by omega)] at hget
      simp at hget
  obtain ⟨l₁, l₂, hsplit⟩ := List.append_of_mem him
  rw [hsplit] at hWF
  obtain ⟨hWF', hnotmem, hcurr⟩ := remove_node_effects hWF
  obtain ⟨hrule, hne_iff, hne⟩ := hcurr hc
  simp only [HarmoniaApp.remove_from_queue_ui, hget]
  rw [if_pos ⟨hc, hp⟩]
  exact ⟨rfl, rfl, rfl, hrule, ⟨l₁ ++ l₂, hWF'⟩, hne⟩

/-- A playing two-song state: the current (first) node is playing. -/
def sampleAppPlaying : HarmoniaApp :=
  { queue := [10, 20].foldl DoublyLinkedList.append emptyDLL, history := ⟨[]⟩,
    current_view_songs := [10, 20], selection := none, is_looping := false,
    is_shuffled := false, is_playing := true, mixer := .playing,
    mixer_ever_played := true, now_playing := some 10 }

theorem C9_remove_current_playing_witness :
    WF sampleAppPlaying.queue [0, 1] ∧
    sampleAppPlaying.queue.get_node_at_index 0 = some 0 ∧
    sampleAppPlaying.queue.current = some 0 ∧
    sampleAppPlaying.is_playing = true ∧
    ((sampleAppPlaying.remove_from_queue_ui 0).is_playing = false ∧
      (sampleAppPlaying.remove_from_queue_ui 0).mixer = MixerState.idle ∧
      (sampleAppPlaying.remove_from_queue_ui 0).now_playing = none) :=
  ⟨by decide, by decide, by decide, by decide,
    let h := C9_remove_current_playing (l := [0, 1]) (k := 0) (i := 0)
      (by decide) (by decide) (by decide) (by decide)
    ⟨h.1, h.2.1, h.2.2.1⟩⟩

/-- C5: for a queue that was built from the current view's track list and
then shuffled, with no intervening modification, toggling shuffle off
rebuilds the queue in exactly the original (view) head-to-tail track
order; and if `current` pointed at a track present in the view, `current`
again points at a node holding that same track. -/
theorem C5_unshuffle_restores {a : HarmoniaApp} (hsh : a.is_shuffled = true)
    {b : DoublyLinkedList} {t : Option Song} {u : List Nat}
    (_hqueue : a.queue =
      ({ (rebuildFromView b a.current_view_songs t).1 with
         current := (rebuildFromView b a.current_view_songs t).2 }).shuffle u)
    (js : List Nat) :
    (a.toggle_shuffle js).queue.track_list = a.current_view_songs ∧
    (∀ c s, a.queue.current = some c → (a.queue.mem c).data = s →
      s ∈ a.current_view_songs →
      ∃ i, (a.toggle_shuffle js).queue.current = some i ∧
        ((a.toggle_shuffle js).queue.mem i).data = s) := by
  obtain ⟨q', st', l', heq, hWF', hmap, hinv, hdef, -⟩ :=
    rebuild_fold_spec (a.queue.current.map fun i => (a.queue.mem i).data)
      a.current_view_songs a.queue.clear none [] (clear_WF _)
      (by intro i hi; cases hi)
  have htog : (a.toggle_shuffle js).queue = { q' with current := st' } := by
    simp only [HarmoniaApp.toggle_shuffle, hsh, Bool.not_true]
    rw [if_neg Bool.false_ne_true]
    rw [show rebuildFromView a.queue a.current_view_songs
        (a.queue.current.map fun i => (a.queue.mem i).data) = (q', st') from heq]
  have hQ : WF { q' with current := st' } l' :=
    set_current_WF hWF' (fun i hi => (hinv i hi).1)
  constructor
  · rw [htog, WF_track_list hQ]
    show l'.map (fun i => (q'.mem i).data) = a.current_view_songs
    rw [hmap]
    simp
  · intro c s hc hs hsv
    have hcd : (a.queue.current.map fun i => (a.queue.mem i).data) = some s := by
      rw [hc]
      simp [hs]
    obtain ⟨j, hj⟩ := hdef s hcd hsv
    obtain ⟨-, s0, hs0, hdat⟩ := hinv j hj
    have hss : s0 = s := by
      rw [hcd] at hs0
      exact (Option.some.inj hs0).symm
    refine ⟨j, ?_, ?_⟩
    · rw [htog]
      show st' = some j
      exact hj
    · rw [htog]
      show (q'.mem j).data = s
      rw [hdat, hss]

/-- A shuffled state whose queue was built from the current view
`[10, 20]` (current at the node holding 10) and then shuffled. -/
def sampleAppShuffled : HarmoniaApp :=
  { queue := ({ (rebuildFromView emptyDLL [10, 20] (some 10)).1 with
      current := (rebuildFromView emptyDLL [10, 20] (some 10)).2 }).shuffle [1],
    history := ⟨[]⟩, current_view_songs := [10, 20], selection := none,
    is_looping := false, is_shuffled := true, is_playing := true,
    mixer := .playing, mixer_ever_played := true, now_playing := some 10 }

theorem C5_unshuffle_restores_witness :
    sampleAppShuffled.is_shuffled = true ∧
    sampleAppShuffled.queue =
      ({ (rebuildFromView emptyDLL sampleAppShuffled.current_view_songs
            (some 10)).1 with
         current := (rebuildFromView emptyDLL
            sampleAppShuffled.current_view_songs (some 10)).2 }).shuffle [1] ∧
    sampleAppShuffled.queue.current = some 0 ∧
    (sampleAppShuffled.queue.mem 0).data = 10 ∧
    (10 : Song) ∈ sampleAppShuffled.current_view_songs ∧
    ((sampleAppShuffled.toggle_shuffle []).queue.track_list =
        sampleAppShuffled.current_view_songs ∧
      ∃ i, (sampleAppShuffled.toggle_shuffle []).queue.current = some i ∧
        ((sampleAppShuffled.toggle_shuffle []).queue.mem i).data = 10) :=
  ⟨rfl, rfl, by decide, by decide, by decide,
    (C5_unshuffle_restores (b := emptyDLL) (t := some 10) (u := [1]) rfl rfl []).1,
    (C5_unshuffle_restores (b := emptyDLL) (t := some 10) (u := [1]) rfl rfl []).2
      0 10 (by decide) (by decide) (by decide)⟩
